import Mathlib

/-!
Verification of the async-jsonl line readers (crates `async_rev_buf` and
`async_jsonl`) against their specification.

The readers operate on byte sources.  We embed sources as `List Nat` (one
`Nat` per byte).  The text-level operations of the Rust code are modelled
at the byte level: `lines` splits at byte 0x0A (stripping one trailing
0x0D from a terminated segment), `trim` strips the ASCII whitespace bytes
0x09-0x0D and 0x20, and `String::from_utf8_lossy` is modelled explicitly
by `lossyDecode`, which keeps valid UTF-8 verbatim and replaces every
maximal ill-formed subsequence by the 3-byte U+FFFD.  The reverse reader
is given in two layers: `revLoopF`/`revNext`/`revLines` treat the window
text as its raw bytes — exact for sources whose bytes are all below 128,
where lossy decoding is the identity — while
`revLoopFL`/`revNextL`/`revLinesL` decode each accumulated window before
line-splitting, trimming, and the `before_text.as_bytes().len()` position
accounting, exactly as the code does; `revLoopFL_agree` proves the two
layers coincide on ASCII sources.  The distinction matters: on malformed
UTF-8 the decoded `before_text` is longer than the raw bytes it stands
for, so the real `file_pos` drifts upward (capturing the claims the
lossy layer settles).

Asynchrony is irrelevant to the values computed: each reader is a
single-consumer state machine whose only suspension points are seeks/reads
on the source, so a call to `poll_next_line_reverse` (resp. one stream
item) is modelled as a pure function of the source bytes and the stored
state.  An in-memory source's seeks and reads never fail; a read past the
end of the available bytes returns 0 bytes, which the Rust fill loop
(`buf_reader.rs` lines 137-144) absorbs by truncating the chunk — this is
modelled by `List.drop`/`List.take` slicing, which truncates the same way.
-/

namespace AsyncJsonl

/-- ASCII whitespace bytes, exactly the ASCII characters for which Rust's
`char::is_whitespace` holds: tab, line feed, vertical tab, form feed,
carriage return, space. -/
def isWs (b : Nat) : Bool :=
  b == 9 || b == 10 || b == 11 || b == 12 || b == 13 || b == 32

/-- Byte-level model of Rust `str::trim`: drop whitespace from both ends. -/
def trimB (l : List Nat) : List Nat :=
  ((l.dropWhile isWs).reverse.dropWhile isWs).reverse

/-- Split a byte list at every 0x0A (`\n`).  Mirrors the segment structure
underlying Rust's `str::lines` / `split('\n')`: always returns at least one
(possibly empty) segment. -/
def splitNL : List Nat → List (List Nat)
  | [] => [[]]
  | b :: t =>
    if b = 10 then [] :: splitNL t
    else
      match splitNL t with
      | [] => [[b]]
      | h :: r => (b :: h) :: r

/-- Join segments with 0x0A separators; left inverse of `splitNL`. -/
def joinNL : List (List Nat) → List Nat
  | [] => []
  | [x] => x
  | x :: y :: r => x ++ 10 :: joinNL (y :: r)

/-- Strip one trailing 0x0D (`\r`), as Rust's `lines` does to a segment
whose terminating `\n` was removed. -/
def stripCR (l : List Nat) : List Nat :=
  if l.getLast? = some 13 then l.dropLast else l

/-- Byte-level model of Rust `str::lines` (also of tokio's
`AsyncBufReadExt::lines` item sequence): split at `\n`; a final empty
segment (trailing terminator) yields no line; every segment whose `\n`
was removed additionally loses one trailing `\r`; a final segment with no
terminator is returned as is (no `\r` strip). -/
def rustLines (s : List Nat) : List (List Nat) :=
  if s = [] then []
  else
    (splitNL s).dropLast.map stripCR ++
      (if (splitNL s).getLastD [] = [] then [] else [(splitNL s).getLastD []])

/-- The forward reader `Jsonl` (`jsonl_reader.rs`, `impl Stream for Jsonl`):
tokio's line stream with each line trimmed and blank lines skipped.
This models the `Ok`-line sequence for sources that decode as UTF-8
without error (exact for ASCII); on a line with malformed UTF-8, tokio's
`read_line` instead yields an `InvalidData` I/O error item, which this
byte-level model does not represent — the universally quantified theorems
below therefore carry an all-bytes-below-128 hypothesis wherever the
forward reader is compared against the reverse reader. -/
def fwdLines (s : List Nat) : List (List Nat) :=
  ((rustLines s).map trimB).filter (fun l => l ≠ [])

/-- Byte length of `lines[0..len-1].join("\n") + "\n"`
(`buf_reader.rs` lines 163-165): the reader's accounting of how many bytes
of the window precede its last line. -/
def beforeLen (ls : List (List Nat)) : Nat :=
  (joinNL ls.dropLast).length + 1

/-- The `DEFAULT_BUF_SIZE` constant from `async_rev_buf/src/lib.rs`: 8 KiB. -/
def defaultBufSize : Nat := 8 * 1024

/-- The quantity `chunk_start = current_end - min(capacity, current_end)`
(`buf_reader.rs` lines 131-132). -/
def chunkStart (c low : Nat) : Nat := low - min c low

/-- The accumulated window `src[s, E)`: the bytes read so far in this
accumulation round (chunk prepended to the carried data).  `take`
truncates at the end of the source, exactly as the fill loop does when a
read returns 0 bytes early. -/
def window (src : List Nat) (E s : Nat) : List Nat := (src.drop s).take (E - s)

/-- One call to `RevBufReader::poll_next_line_reverse`
(`buf_reader.rs` lines 112-203) over a source whose lossy UTF-8 decoding
is the identity (every byte < 128; see `revLoopFL` below for the general
model including `String::from_utf8_lossy`, and `revLoopFL_agree` for the
proof that the two coincide on such sources).  Modelled as a fueled
function of the source bytes, the buffer capacity `c`, and the loop
state: `E` is the current value of `file_pos` (the accumulation window's
right edge, reset on blank-line skips) and `low` is `current_end` for the
next chunk fetch.  The result is the returned line (if any) together with
the value of `file_pos` after the call.

Branches, in source order:
* `low = 0`: the `while current_end > 0` loop exits; `Ok(None)` with
  `file_pos` unchanged (its current value is `E`).
* chunk size `min c low = 0` (capacity 0): the Rust loop would spin
  forever re-reading an empty chunk; modelled as exhaustion (all claims
  assume capacity ≥ 1).
* window `W = src[low - cs, E)` (chunk prepended to accumulated data);
  `ls = W.lines()`.
* `ls.length > 1 ∨ (ls.length = 1 ∧ chunk_start = 0)`: a candidate last
  line exists.  If it trims nonempty it is returned, with `file_pos`
  set to `chunk_start + beforeLen` (more lines before it) or
  `chunk_start` (sole line).  If it trims empty and more lines exist,
  `file_pos` is reset and accumulation restarts (blank-line skip).
* otherwise fall through: at `chunk_start = 0` the whole remaining window
  is the final line (emitted unless it trims empty), else fetch another
  chunk.

Fuel strictly exceeding `E*E + E + low` suffices (see
`revLoopF_spec`-style lemmas below); `revNext` always supplies it. -/
def revLoopF (src : List Nat) (c : Nat) : Nat → Nat → Nat → Option (List Nat) × Nat
  | 0, E, _ => (none, E)
  | fuel + 1, E, low =>
    if low = 0 then (none, E)
    else if min c low = 0 then (none, E)
    else
      let s := chunkStart c low
      let W := window src E s
      let ls := rustLines W
      if ls.length > 1 ∨ (ls.length = 1 ∧ s = 0) then
        if trimB (ls.getLastD []) = [] then
          if ls.length > 1 then
            revLoopF src c fuel (s + beforeLen ls) (s + beforeLen ls)
          else
            if s = 0 then
              if W ≠ [] ∧ trimB W ≠ [] then (some (trimB W), 0) else (none, E)
            else revLoopF src c fuel E s
        else
          (some (trimB (ls.getLastD [])), if ls.length > 1 then s + beforeLen ls else s)
      else
        if s = 0 then
          if W ≠ [] ∧ trimB W ≠ [] then (some (trimB W), 0) else (none, E)
        else revLoopF src c fuel E s

/-- One full call to `poll_next_line_reverse` with stored `file_pos = fp`
(ASCII layer; see `revNextL` for the general model): after
initialization, a zero-size source returns no line; otherwise the scan
loop runs from `current_end = fp`. -/
def revNext (src : List Nat) (c : Nat) (fp : Nat) : Option (List Nat) × Nat :=
  if src.length = 0 then (none, fp)
  else revLoopF src c (fp * fp + fp + fp + 1) fp fp

/-- Drain the reverse reader from state `fp`: the sequence of lines
produced by repeated `poll_next_line_reverse` calls.  Fuel `fp + 1`
suffices since `file_pos` strictly decreases at every emitted line. -/
def revLinesAuxF (src : List Nat) (c : Nat) : Nat → Nat → List (List Nat)
  | 0, _ => []
  | fuel + 1, fp =>
    match revNext src c fp with
    | (none, _) => []
    | (some l, p) => l :: revLinesAuxF src c fuel p

/-- The full line sequence of `RevBufReader::with_capacity(c, src).lines()`
(last line first), for sources on which lossy decoding is the identity
(see `revLinesL` for the general model and `revLinesL_agree`). -/
def revLines (src : List Nat) (c : Nat) : List (List Nat) :=
  revLinesAuxF src c (src.length + 1) src.length

/-- The UTF-8 bytes of U+FFFD, the replacement character that
`String::from_utf8_lossy` substitutes for ill-formed input. -/
def fffd : List Nat := [239, 191, 189]

/-- State of the byte-at-a-time lossy UTF-8 decoder: the raw bytes of the
partially validated multi-byte sequence, how many continuation bytes are
still required (`0` when no sequence is open), and the admissible range
for the next byte. -/
structure LossyState where
  pending : List Nat
  need : Nat
  lo : Nat
  hi : Nat

/-- The decoder state with no multi-byte sequence open. -/
def lossyStart : LossyState := ⟨[], 0, 0, 0⟩

/-- Process one byte in the start state, per Rust's
`core::str::run_utf8_validation` lead-byte classification: ASCII is
emitted directly; C2-DF, E0 (second byte A0-BF), E1-EC, ED (second byte
80-9F, excluding surrogates), EE-EF, F0 (second byte 90-BF), F1-F3 and F4
(second byte 80-8F) open a sequence; every other byte (stray continuation
80-BF, overlong leads C0-C1, out-of-range F5-FF) is an invalid
one-byte subsequence replaced by U+FFFD. -/
def lossyLead (b : Nat) : List Nat × LossyState :=
  if b ≤ 127 then ([b], lossyStart)
  else if 194 ≤ b ∧ b ≤ 223 then ([], ⟨[b], 1, 128, 191⟩)
  else if b = 224 then ([], ⟨[b], 2, 160, 191⟩)
  else if 225 ≤ b ∧ b ≤ 236 then ([], ⟨[b], 2, 128, 191⟩)
  else if b = 237 then ([], ⟨[b], 2, 128, 159⟩)
  else if 238 ≤ b ∧ b ≤ 239 then ([], ⟨[b], 2, 128, 191⟩)
  else if b = 240 then ([], ⟨[b], 3, 144, 191⟩)
  else if 241 ≤ b ∧ b ≤ 243 then ([], ⟨[b], 3, 128, 191⟩)
  else if b = 244 then ([], ⟨[b], 3, 128, 143⟩)
  else (fffd, lossyStart)

/-- Process one byte: inside an open sequence an in-range byte extends or
completes it (a completed sequence is emitted verbatim); an out-of-range
byte ends the maximal subpart — the pending bytes are replaced by one
U+FFFD and the byte is reprocessed as a lead, exactly the
`Utf8Error::error_len` resumption rule `from_utf8_lossy` follows. -/
def lossyStep (st : LossyState) (b : Nat) : List Nat × LossyState :=
  if st.need = 0 then lossyLead b
  else if st.lo ≤ b ∧ b ≤ st.hi then
    if st.need = 1 then (st.pending ++ [b], lossyStart)
    else ([], ⟨st.pending ++ [b], st.need - 1, 128, 191⟩)
  else (fffd ++ (lossyLead b).1, (lossyLead b).2)

/-- Run the decoder; a sequence left open at the end of input is one
final maximal subpart, replaced by U+FFFD. -/
def lossyGo : LossyState → List Nat → List Nat
  | st, [] => if st.need = 0 then [] else fffd
  | st, b :: rest => (lossyStep st b).1 ++ lossyGo (lossyStep st b).2 rest

/-- Byte-level model of `String::from_utf8_lossy`: valid UTF-8 is
preserved verbatim, every maximal ill-formed subsequence becomes one
3-byte U+FFFD.  On ASCII input it is the identity (`lossyDecode_ascii`). -/
def lossyDecode (s : List Nat) : List Nat := lossyGo lossyStart s

/-- The general model of one `poll_next_line_reverse` scan loop
(`buf_reader.rs` lines 112-203), including the lossy UTF-8 decoding the
code performs: each accumulated window is decoded with
`String::from_utf8_lossy` before `lines()` splitting, trimming, and the
`before_text.as_bytes().len()` position accounting (lines 152, 164-165
and 191-192 of the source), so a malformed sequence contributes the
3-byte U+FFFD to `before_text` while occupying fewer raw bytes — the
updated `file_pos` can therefore exceed `E` (see
`c4_file_pos_can_increase`).  Chunk arithmetic (`chunk_start`, window
slicing) stays in raw bytes, as in the code.  On sources whose bytes are
all below 128 this agrees with `revLoopF` (`revLoopFL_agree`).  The fuel
bound of `revNextL` is sufficient for such sources; on arbitrary bytes
the real loop need not terminate at all (the same drift makes it re-read
a stuck window forever), and exhausted fuel returns `(none, E)`. -/
def revLoopFL (src : List Nat) (c : Nat) : Nat → Nat → Nat → Option (List Nat) × Nat
  | 0, E, _ => (none, E)
  | fuel + 1, E, low =>
    if low = 0 then (none, E)
    else if min c low = 0 then (none, E)
    else
      let s := chunkStart c low
      let W := window src E s
      let ls := rustLines (lossyDecode W)
      if ls.length > 1 ∨ (ls.length = 1 ∧ s = 0) then
        if trimB (ls.getLastD []) = [] then
          if ls.length > 1 then
            revLoopFL src c fuel (s + beforeLen ls) (s + beforeLen ls)
          else
            if s = 0 then
              if W ≠ [] ∧ trimB (lossyDecode W) ≠ [] then
                (some (trimB (lossyDecode W)), 0)
              else (none, E)
            else revLoopFL src c fuel E s
        else
          (some (trimB (ls.getLastD [])), if ls.length > 1 then s + beforeLen ls else s)
      else
        if s = 0 then
          if W ≠ [] ∧ trimB (lossyDecode W) ≠ [] then
            (some (trimB (lossyDecode W)), 0)
          else (none, E)
        else revLoopFL src c fuel E s

/-- One full `poll_next_line_reverse` call with stored `file_pos = fp`,
general (lossy-decoding) model. -/
def revNextL (src : List Nat) (c : Nat) (fp : Nat) : Option (List Nat) × Nat :=
  if src.length = 0 then (none, fp)
  else revLoopFL src c (fp * fp + fp + fp + 1) fp fp

/-- Drain the reverse reader from state `fp`, general model. -/
def revLinesAuxFL (src : List Nat) (c : Nat) : Nat → Nat → List (List Nat)
  | 0, _ => []
  | fuel + 1, fp =>
    match revNextL src c fp with
    | (none, _) => []
    | (some l, p) => l :: revLinesAuxFL src c fuel p

/-- The line sequence of `RevBufReader::with_capacity(c, src).lines()`,
general (lossy-decoding) model.  On a source where `file_pos` gets stuck
(see `c4_file_pos_can_increase`) the real stream repeats a line forever;
the fueled model returns the first `src.length + 1` items of that
stream. -/
def revLinesL (src : List Nat) (c : Nat) : List (List Nat) :=
  revLinesAuxFL src c (src.length + 1) src.length

/-- Model of `TakeNLines` (`take_n.rs` lines 24-48): the forward line stream with a
remaining-count; each polled line is trimmed, blank lines are skipped
without decrementing the count, and the stream ends at the count or EOF.
`segs` is the underlying tokio line sequence (`rustLines` of the source). -/
def takeNAux : List (List Nat) → Nat → List (List Nat)
  | _, 0 => []
  | [], _ + 1 => []
  | seg :: rest, r + 1 =>
    if trimB seg = [] then takeNAux rest (r + 1)
    else trimB seg :: takeNAux rest r

/-- Model of `Jsonl::first_n(n)` / `TakeNLines::new`: the first `n` non-blank
trimmed lines in source order. -/
def firstN (src : List Nat) (n : Nat) : List (List Nat) :=
  takeNAux (rustLines src) n

/-- The `for line in lines[start_idx..].iter().rev()` loop of
`TakeNLinesReverse::new` (`take_n.rs` lines 104-112): walk the segments
last-to-first (`rs` is the segment list already reversed), prepend each
non-blank trimmed line (`insert(0, ..)`), and stop as soon as `n` lines
are gathered. -/
def collectRev (n : Nat) : List (List Nat) → List (List Nat) → List (List Nat)
  | found, [] => found
  | found, seg :: rest =>
    if trimB seg = [] then collectRev n found rest
    else
      let found' := trimB seg :: found
      if n ≤ found'.length then found' else collectRev n found' rest

/-- The `while current_pos > 0 && lines_found.len() < n` loop of
`TakeNLinesReverse::new` (`take_n.rs` lines 75-113), with fixed 8192-byte
chunks.  `found` is `lines_found`, `buffer` the carry bytes, `cp` the
current position.  Each iteration reads `src[cp - rs, cp)` (`read_exact`
always succeeds: `cp ≤ file size`), prepends it to the carry, splits into
lines, and either carries the (possibly partial, already `\r`-stripped)
first line while consuming the rest, keeps the whole buffer when it holds
at most one line, or consumes everything when the start is reached or the
buffer begins with a terminator.  Fuel `cp + 1` suffices (`cp` strictly
decreases). -/
def takeNRevLoopF (src : List Nat) (n : Nat) :
    Nat → List (List Nat) → List Nat → Nat → List (List Nat)
  | 0, found, _, _ => found
  | fuel + 1, found, buffer, cp =>
    if cp = 0 ∨ n ≤ found.length then found
    else
      let rs := min 8192 cp
      let np := cp - rs
      let chunk := (src.drop np).take rs
      let buffer' := chunk ++ buffer
      let bl := rustLines buffer'
      if 0 < np ∧ buffer' ≠ [] ∧ buffer'.headD 0 ≠ 10 then
        if bl.length > 1 then
          takeNRevLoopF src n fuel (collectRev n found (bl.drop 1).reverse) (bl.headD []) np
        else
          takeNRevLoopF src n fuel found buffer' np
      else
        takeNRevLoopF src n fuel (collectRev n found bl.reverse) [] np

/-- Model of `Jsonl::last_n(n)` / `TakeNLinesReverse::new` (`take_n.rs` lines
56-125): materialize up to `n` trailing non-blank lines, drop any excess
from the front, and reverse so the last line comes first. -/
def lastN (src : List Nat) (n : Nat) : List (List Nat) :=
  if src.length = 0 ∨ n = 0 then []
  else
    let lf := takeNRevLoopF src n (src.length + 1) [] [] src.length
    (if n < lf.length then lf.drop (lf.length - n) else lf).reverse

/-- Model of `impl Stream for TakeNLinesReverse` (`take_n.rs` lines 128-137):
polling drains the materialized line list, wrapping every line in `Ok`.
The error type mirrors `anyhow::Error` as a byte message. -/
def pollDrain : List (List Nat) → List (Except (List Nat) (List Nat))
  | [] => []
  | l :: t => Except.ok l :: pollDrain t

/-- ASCII bytes of a string literal (all message strings used are ASCII). -/
def strBytes (s : String) : List Nat :=
  s.toList.map Char.toNat

/-- The fixed message head `"Failed to parse JSON line: "` of the decode
error built in `value.rs` (`anyhow!("Failed to parse JSON line: {}", e)`). -/
def errTag : List Nat := strBytes "Failed to parse JSON line: "

/-- The `deserialize` adapters of `value.rs`: map each stream item through
`result.and_then(|line| dec(line).map_err(tagged message))`.  `dec` is the
caller-supplied structured decoder (`serde_json::from_str` in the code),
returning either a value of the target type or its own error message. -/
def deserializeStream {T : Type} (dec : List Nat → Except (List Nat) T) :
    List (Except (List Nat) (List Nat)) → List (Except (List Nat) T)
  | [] => []
  | Except.ok l :: rest =>
    (match dec l with
     | Except.ok v => Except.ok v
     | Except.error e => Except.error (errTag ++ e)) :: deserializeStream dec rest
  | Except.error e :: rest => Except.error e :: deserializeStream dec rest

/-- Stream items of the forward readers over an in-memory ASCII source:
every line arrives as `Ok` (no I/O or UTF-8 errors are possible). -/
def fwdItems (src : List Nat) : List (Except (List Nat) (List Nat)) :=
  (fwdLines src).map Except.ok

/-- Stream items of `TakeNLines` over an in-memory ASCII source. -/
def firstNItems (src : List Nat) (n : Nat) : List (Except (List Nat) (List Nat)) :=
  (firstN src n).map Except.ok

instance {ε α : Type} [DecidableEq ε] [DecidableEq α] : DecidableEq (Except ε α) :=
  fun a b =>
    match a, b with
    | Except.ok x, Except.ok y =>
      if h : x = y then Decidable.isTrue (congrArg Except.ok h)
      else Decidable.isFalse (fun hc => h (Except.ok.inj hc))
    | Except.error x, Except.error y =>
      if h : x = y then Decidable.isTrue (congrArg Except.error h)
      else Decidable.isFalse (fun hc => h (Except.error.inj hc))
    | Except.ok _, Except.error _ => Decidable.isFalse (fun hc => Except.noConfusion hc)
    | Except.error _, Except.ok _ => Decidable.isFalse (fun hc => Except.noConfusion hc)

/-- Whether `pat` occurs contiguously inside `text` (used to express
"the error message carries the offending line text"). -/
def hasInfix : List Nat → List Nat → Bool
  | [], pat => pat.isEmpty
  | t :: rest, pat => ((t :: rest).take pat.length == pat) || hasInfix rest pat

/-- A concrete decoder for the C8 witness: accepts the two well-formed
lines, rejects everything else with the message `"err"`. -/
def c8dec : List Nat → Except (List Nat) Nat := fun l =>
  if l = [123, 125] then Except.ok 1
  else if l = [91, 93] then Except.ok 2
  else Except.error [101, 114, 114]

/-- The decoder message used in the C9 counterexample: the position-only
text serde_json produces for a non-JSON line; it references the line's
coordinates, not its contents. -/
def c9msg : List Nat := strBytes "expected value at line 1 column 1"

/-- A decoder that fails with `c9msg` on every line, as
`serde_json::from_str::<T>` does on non-JSON input. -/
def c9dec : List Nat → Except (List Nat) Nat := fun _ => Except.error c9msg

-- Sanity checks of the lossy decoder: valid sequences kept verbatim,
-- one U+FFFD per maximal ill-formed subsequence.
example : lossyDecode [97, 98, 10] = [97, 98, 10] := by decide
example : lossyDecode [195, 169] = [195, 169] := by decide
example : lossyDecode [226, 130, 172] = [226, 130, 172] := by decide
example : lossyDecode [240, 159, 146, 150] = [240, 159, 146, 150] := by decide
example : lossyDecode [255, 10] = fffd ++ [10] := by decide
example : lossyDecode [224, 128] = fffd ++ fffd := by decide
example : lossyDecode [194] = fffd := by decide
example : lossyDecode [225, 128, 65] = fffd ++ [65] := by decide
example : lossyDecode [237, 160, 128] = fffd ++ fffd ++ fffd := by decide
-- The U+FFFD length drift: on "\xFF\na\nb" the first call moves file_pos
-- from 5 to 6 (past EOF), and the reader then returns "b" forever.
example : revNextL [255, 10, 97, 10, 98] defaultBufSize 5 = (some [98], 6) := by decide
example : revNextL [255, 10, 97, 10, 98] defaultBufSize 6 = (some [98], 6) := by decide
-- Capacity 1 on the same source instead terminates with "b", "a", U+FFFD.
example : revLinesL [255, 10, 97, 10, 98] 1 = [[98], [97], fffd] := by decide

-- Sanity: the Last-N / First-N scenario of the spec, "a\nb\nc\n".
example : lastN [97, 10, 98, 10, 99, 10] 2 = [[99], [98]] := by decide
example : firstN [97, 10, 98, 10, 99, 10] 2 = [[97], [98]] := by decide
example : lastN [97, 10, 98, 10, 99, 10] 5 = [[99], [98], [97]] := by decide

-- Sanity checks of the model against the repository's own tests
-- ("line1\nline2\nline3" reversed; blank lines skipped).
example :
    revLines [97, 10, 98, 10, 99] defaultBufSize = [[99], [98], [97]] := by decide
example :
    revLines [97, 10, 10, 10, 98, 10, 10, 99, 10] defaultBufSize
      = [[99], [98], [97]] := by decide
example : revLines [] defaultBufSize = [] := by decide
example : revLines [120] defaultBufSize = [[120]] := by decide
example : fwdLines [120] = [[120]] := by decide
-- Mixed terminators "a\nb\r\nc": reverse yields ["c", "b", "a"].
example :
    revLines [97, 10, 98, 13, 10, 99] defaultBufSize = [[99], [98], [97]] := by decide
-- CRLF accounting slip: "a\r\nb\r\nc\nd" loses the line "c".
example :
    revLines [97, 13, 10, 98, 13, 10, 99, 10, 100] defaultBufSize
      = [[100], [98], [97]] := by decide
-- ... but capacity 1 on the same source finds all four lines.
example :
    revLines [97, 13, 10, 98, 13, 10, 99, 10, 100] 1
      = [[100], [99], [98], [97]] := by decide

/-! ### Split/join algebra -/

theorem splitNL_ne_nil (s : List Nat) : splitNL s ≠ [] := by
  match s with
  | [] => simp [splitNL]
  | b :: t =>
    simp only [splitNL]
    split
    · simp
    · cases h : splitNL t <;> simp

theorem joinNL_cons_of_ne_nil (x : List Nat) {ys : List (List Nat)} (h : ys ≠ []) :
    joinNL (x :: ys) = x ++ 10 :: joinNL ys := by
  cases ys with
  | nil => exact absurd rfl h
  | cons y r => rfl

theorem joinNL_splitNL (s : List Nat) : joinNL (splitNL s) = s := by
  induction s with
  | nil => rfl
  | cons b t ih =>
    by_cases hb : b = 10
    · subst hb
      rw [show splitNL (10 :: t) = [] :: splitNL t by simp [splitNL]]
      rw [joinNL_cons_of_ne_nil _ (splitNL_ne_nil t), ih]
      rfl
    · cases h : splitNL t with
      | nil => exact absurd h (splitNL_ne_nil t)
      | cons hd r =>
        have hs : splitNL (b :: t) = (b :: hd) :: r := by
          simp only [splitNL, if_neg hb, h]
        rw [hs]
        cases r with
        | nil =>
          have : joinNL [hd] = t := by rw [← h] at *; simpa [h] using ih
          simpa [joinNL] using this
        | cons y r' =>
          have ht : hd ++ 10 :: joinNL (y :: r') = t := by
            have := ih
            rwa [h, joinNL_cons_of_ne_nil _ (by simp)] at this
          calc joinNL ((b :: hd) :: y :: r') = (b :: hd) ++ 10 :: joinNL (y :: r') := rfl
            _ = b :: (hd ++ 10 :: joinNL (y :: r')) := rfl
            _ = b :: t := by rw [ht]

theorem splitNL_append_cons (u v : List Nat) :
    splitNL (u ++ 10 :: v) = splitNL u ++ splitNL v := by
  induction u with
  | nil => simp [splitNL]
  | cons b u ih =>
    by_cases hb : b = 10
    · subst hb
      show splitNL (10 :: (u ++ 10 :: v)) = splitNL (10 :: u) ++ splitNL v
      rw [show splitNL (10 :: (u ++ 10 :: v)) = [] :: splitNL (u ++ 10 :: v) by
            simp [splitNL],
          show splitNL (10 :: u) = [] :: splitNL u by simp [splitNL], ih]
      rfl
    · cases h : splitNL u with
      | nil => exact absurd h (splitNL_ne_nil u)
      | cons hd r =>
        have h1 : splitNL (b :: u) = (b :: hd) :: r := by
          simp only [splitNL, if_neg hb, h]
        have h2 : splitNL (b :: (u ++ 10 :: v)) = (b :: hd) :: (r ++ splitNL v) := by
          simp only [splitNL, if_neg hb, ih, h, List.cons_append]
        show splitNL (b :: (u ++ 10 :: v)) = splitNL (b :: u) ++ splitNL v
        rw [h1, h2]
        simp

theorem splitNL_of_no_nl {r : List Nat} (h : (10 : Nat) ∉ r) : splitNL r = [r] := by
  induction r with
  | nil => rfl
  | cons b t ih =>
    have hb : b ≠ 10 := fun hb => h (by simp [hb])
    have ht : (10 : Nat) ∉ t := fun hm => h (by simp [hm])
    simp only [splitNL, if_neg hb, ih ht]

theorem mem_splitNL_no_nl {s seg : List Nat} (h : seg ∈ splitNL s) : (10 : Nat) ∉ seg := by
  induction s generalizing seg with
  | nil => simp [splitNL] at h; simp [h]
  | cons b t ih =>
    by_cases hb : b = 10
    · subst hb
      rw [show splitNL (10 :: t) = [] :: splitNL t by simp [splitNL]] at h
      rcases List.mem_cons.1 h with h | h
      · simp [h]
      · exact ih h
    · cases hsp : splitNL t with
      | nil => exact absurd hsp (splitNL_ne_nil t)
      | cons hd r =>
        rw [show splitNL (b :: t) = (b :: hd) :: r by simp only [splitNL, if_neg hb, hsp]] at h
        rcases List.mem_cons.1 h with h | h
        · subst h
          intro hmem
          rcases List.mem_cons.1 hmem with h10 | h10
          · exact hb h10.symm
          · exact ih (hsp ▸ List.mem_cons_self hd r) h10
        · exact ih (hsp ▸ List.mem_cons_of_mem hd h)

theorem mem_splitNL_subset {s seg : List Nat} (h : seg ∈ splitNL s) {b : Nat}
    (hb : b ∈ seg) : b ∈ s := by
  induction s generalizing seg with
  | nil => simp [splitNL] at h; subst h; simp at hb
  | cons a t ih =>
    by_cases ha : a = 10
    · subst ha
      rw [show splitNL (10 :: t) = [] :: splitNL t by simp [splitNL]] at h
      rcases List.mem_cons.1 h with h | h
      · subst h; simp at hb
      · exact List.mem_cons_of_mem _ (ih h hb)
    · cases hsp : splitNL t with
      | nil => exact absurd hsp (splitNL_ne_nil t)
      | cons hd r =>
        rw [show splitNL (a :: t) = (a :: hd) :: r by simp only [splitNL, if_neg ha, hsp]] at h
        rcases List.mem_cons.1 h with h | h
        · subst h
          rcases List.mem_cons.1 hb with h' | h'
          · simp [h']
          · exact List.mem_cons_of_mem _ (ih (hsp ▸ List.mem_cons_self hd r) h')
        · exact List.mem_cons_of_mem _ (ih (hsp ▸ List.mem_cons_of_mem hd h) hb)

theorem joinNL_concat {xs : List (List Nat)} (h : xs ≠ []) (y : List Nat) :
    joinNL (xs ++ [y]) = joinNL xs ++ 10 :: y := by
  induction xs with
  | nil => exact absurd rfl h
  | cons x xs ih =>
    cases xs with
    | nil => rfl
    | cons z zs =>
      have step1 : (x :: z :: zs) ++ [y] = x :: ((z :: zs) ++ [y]) := rfl
      rw [step1, joinNL_cons_of_ne_nil _ (by simp), ih (by simp),
          joinNL_cons_of_ne_nil _ (by simp : (z :: zs : List (List Nat)) ≠ []),
          List.append_assoc]
      rfl

theorem splitNL_eq_singleton_nil {s : List Nat} (h : splitNL s = [[]]) : s = [] := by
  have := joinNL_splitNL s
  rw [h] at this
  simpa [joinNL] using this.symm

/-! ### Trim and carriage-return stripping -/

theorem dropWhile_head_not {p : Nat → Bool} :
    ∀ {l : List Nat} {a : Nat}, (l.dropWhile p).head? = some a → p a = false := by
  intro l
  induction l with
  | nil => intro a h; simp [List.dropWhile] at h
  | cons b t ih =>
    intro a h
    by_cases hb : p b
    · rw [List.dropWhile_cons, if_pos hb] at h
      exact ih h
    · rw [List.dropWhile_cons, if_neg hb] at h
      simp at h
      subst h
      simpa using hb

theorem dropWhile_dropWhile {p : Nat → Bool} (l : List Nat) :
    (l.dropWhile p).dropWhile p = l.dropWhile p := by
  cases h : l.dropWhile p with
  | nil => rfl
  | cons a t =>
    have ha : p a = false := dropWhile_head_not (l := l) (by simp [h])
    rw [List.dropWhile_cons, if_neg (by simp [ha])]

theorem trimB_subset {l : List Nat} : ∀ {b : Nat}, b ∈ trimB l → b ∈ l := by
  intro b hb
  unfold trimB at hb
  rw [List.mem_reverse] at hb
  have h1 := (List.dropWhile_suffix isWs
      (l := (l.dropWhile isWs).reverse)).subset hb
  rw [List.mem_reverse] at h1
  exact (List.dropWhile_suffix isWs (l := l)).subset h1

theorem trimB_nil_of_allWS {l : List Nat} (h : ∀ b ∈ l, isWs b) : trimB l = [] := by
  unfold trimB
  rw [List.dropWhile_eq_nil_iff.2 h]
  rfl

theorem trimB_idem (l : List Nat) : trimB (trimB l) = trimB l := by
  unfold trimB
  set X := l.dropWhile isWs with hX
  set Y := X.reverse.dropWhile isWs with hY
  -- The left trim of `Y.reverse` is `Y.reverse` itself: `Y.reverse` is a
  -- prefix of `X`, whose head is not whitespace.
  have hYX : Y.reverse.dropWhile isWs = Y.reverse := by
    cases h : Y.reverse with
    | nil => rfl
    | cons a t =>
      rcases (List.dropWhile_suffix isWs (l := X.reverse)) with ⟨u, hu⟩
      have hXeq : X = (a :: t) ++ u.reverse := by
        have hrev := congrArg List.reverse hu
        rw [List.reverse_append, List.reverse_reverse] at hrev
        rw [← hY, h] at hrev
        exact hrev.symm
      have haX : (l.dropWhile isWs).head? = some a := by
        rw [← hX, hXeq]
        simp
      have ha : isWs a = false := dropWhile_head_not haX
      rw [List.dropWhile_cons, if_neg (by simp [ha])]
  rw [hYX]
  have : Y.reverse.reverse.dropWhile isWs = Y := by
    rw [List.reverse_reverse]
    exact dropWhile_dropWhile _
  rw [this]

theorem trimB_append_nl (xs : List Nat) : trimB (xs ++ [10]) = trimB xs := by
  unfold trimB
  rw [List.dropWhile_append]
  by_cases h : (xs.dropWhile isWs).isEmpty
  · rw [if_pos (by simpa using h)]
    have hx : xs.dropWhile isWs = [] := by simpa [List.isEmpty_iff] using h
    rw [hx]
    rfl
  · rw [if_neg (by simpa using h)]
    have : ((xs.dropWhile isWs ++ [10]).reverse) = 10 :: (xs.dropWhile isWs).reverse := by
      simp
    rw [this, List.dropWhile_cons, if_pos (by simp [isWs])]

theorem stripCR_of_no13 {l : List Nat} (h : (13 : Nat) ∉ l) : stripCR l = l := by
  unfold stripCR
  rw [if_neg]
  intro hc
  have hl : l ≠ [] := by rintro rfl; simp at hc
  have : l.getLast hl ∈ l := List.getLast_mem hl
  rw [List.getLast?_eq_getLast l hl] at hc
  simp at hc
  exact h (hc ▸ this)

theorem stripCR_subset {l : List Nat} : ∀ {b : Nat}, b ∈ stripCR l → b ∈ l := by
  intro b hb
  unfold stripCR at hb
  split at hb
  · exact (List.dropLast_sublist l).mem hb
  · exact hb

theorem stripCR_length_le (l : List Nat) : (stripCR l).length ≤ l.length := by
  unfold stripCR
  split
  · simp only [List.length_dropLast]
    omega
  · exact le_rfl

/-! ### Length accounting for `beforeLen` -/

theorem joinNL_length_concat {q : List (List Nat)} (hq : q ≠ []) (u : List Nat) :
    (joinNL (q ++ [u])).length = (joinNL q).length + 1 + u.length := by
  rw [joinNL_concat hq]
  simp only [List.length_append, List.length_cons]
  omega

theorem joinNL_map_stripCR_length (q : List (List Nat)) :
    (joinNL (q.map stripCR)).length ≤ (joinNL q).length := by
  induction q with
  | nil => simp [joinNL]
  | cons x xs ih =>
    cases xs with
    | nil => simpa [joinNL] using stripCR_length_le x
    | cons y ys =>
      rw [List.map_cons, joinNL_cons_of_ne_nil _ (by simp),
          joinNL_cons_of_ne_nil _ (by simp : (y :: ys : List (List Nat)) ≠ [])]
      simp only [List.length_append, List.length_cons]
      have := stripCR_length_le x
      have h2 := ih
      rw [List.map_cons] at h2
      omega

theorem beforeLen_lt {W : List Nat} (h2 : 1 < (rustLines W).length) :
    beforeLen (rustLines W) < W.length := by
  have hW : W ≠ [] := by
    rintro rfl
    simp [rustLines] at h2
  have hjoin := joinNL_splitNL W
  rcases (splitNL W).eq_nil_or_concat with hp | ⟨q, t, hp⟩
  · exact absurd hp (splitNL_ne_nil W)
  rw [List.concat_eq_append] at hp
  unfold rustLines at h2 ⊢
  rw [if_neg hW] at h2 ⊢
  simp only [hp, List.getLastD_concat, List.dropLast_concat] at h2 ⊢
  by_cases ht : t = []
  · -- trailing terminator: the last segment is empty and dropped
    rw [if_pos ht, List.append_nil] at h2 ⊢
    have hq2 : 1 < q.length := by simpa using h2
    rcases q.eq_nil_or_concat with hq | ⟨q', u, hq⟩
    · simp [hq] at hq2
    rw [List.concat_eq_append] at hq
    have hq' : q' ≠ [] := by
      rintro rfl
      simp [hq] at hq2
    have hWlen : W.length = (joinNL q).length + 1 := by
      have : joinNL (q ++ [t]) = W := hjoin ▸ (by rw [hp])
      rw [ht] at this
      have hlen := congrArg List.length this
      rw [joinNL_concat (by rintro rfl; simp at hq2) []] at hlen
      simpa using hlen.symm
    unfold beforeLen
    rw [← List.map_dropLast, hq, List.dropLast_concat]
    have h1 : (joinNL (q'.map stripCR)).length ≤ (joinNL q').length :=
      joinNL_map_stripCR_length q'
    have h3 : (joinNL q).length = (joinNL q').length + 1 + u.length := by
      rw [hq]; exact joinNL_length_concat hq' u
    omega
  · -- final segment without terminator
    rw [if_neg ht] at h2 ⊢
    have hq' : q ≠ [] := by
      rintro rfl
      simp at h2
    have hWlen : W.length = (joinNL q).length + 1 + t.length := by
      have : joinNL (q ++ [t]) = W := hjoin ▸ (by rw [hp])
      have hlen := congrArg List.length this
      rw [joinNL_length_concat hq' t] at hlen
      omega
    unfold beforeLen
    rw [List.dropLast_concat]
    have h1 : (joinNL (q.map stripCR)).length ≤ (joinNL q).length :=
      joinNL_map_stripCR_length q
    have htl : 1 ≤ t.length := by
      cases t with
      | nil => exact absurd rfl ht
      | cons a b => simp
    omega

/-! ### Structure of `rustLines` -/

theorem map_stripCR_id {q : List (List Nat)} (h : ∀ x ∈ q, (13 : Nat) ∉ x) :
    q.map stripCR = q := by
  induction q with
  | nil => rfl
  | cons a t ih =>
    rw [List.map_cons, stripCR_of_no13 (h a (List.mem_cons_self a t)),
        ih (fun x hx => h x (List.mem_cons_of_mem a hx))]

theorem rustLines_ne_nil {s : List Nat} (h : s ≠ []) : rustLines s ≠ [] := by
  unfold rustLines
  rw [if_neg h]
  rcases (splitNL s).eq_nil_or_concat with hp | ⟨q, t, hp⟩
  · exact absurd hp (splitNL_ne_nil s)
  rw [List.concat_eq_append] at hp
  rw [hp, List.getLastD_concat, List.dropLast_concat]
  by_cases ht : t = []
  · rw [if_pos ht, List.append_nil]
    intro hq
    have : q = [] := by simpa using hq
    subst this
    exact h (splitNL_eq_singleton_nil (by rw [hp, ht]; rfl))
  · rw [if_neg ht]
    simp

theorem mem_rustLines_subset {s seg : List Nat} (h : seg ∈ rustLines s) {b : Nat}
    (hb : b ∈ seg) : b ∈ s := by
  unfold rustLines at h
  split at h
  · simp at h
  rcases List.mem_append.1 h with h | h
  · rcases List.mem_map.1 h with ⟨seg', hseg', rfl⟩
    exact mem_splitNL_subset ((List.dropLast_sublist _).mem hseg') (stripCR_subset hb)
  · split at h
    · simp at h
    · have hmem : seg ∈ splitNL s := by
        have h1 : seg = (splitNL s).getLastD [] := by simpa using h
        have hne := splitNL_ne_nil s
        rw [List.getLastD_eq_getLast?, List.getLast?_eq_getLast _ hne] at h1
        simp only [Option.getD_some] at h1
        exact h1 ▸ List.getLast_mem hne
      exact mem_splitNL_subset hmem hb

theorem rustLines_decomp {W : List Nat} (h13 : (13 : Nat) ∉ W)
    (h2 : 1 < (rustLines W).length) :
    ∃ ini lst rest, rustLines W = ini ++ [lst] ∧ ini ≠ [] ∧
      W = joinNL ini ++ 10 :: rest ∧
      ((rest = lst ∧ lst ≠ []) ∨ rest = lst ++ [10]) ∧ (10 : Nat) ∉ lst ∧
      (13 : Nat) ∉ lst ∧
      beforeLen (rustLines W) = (joinNL ini).length + 1 := by
  have hW : W ≠ [] := by rintro rfl; simp [rustLines] at h2
  have hjoin := joinNL_splitNL W
  rcases (splitNL W).eq_nil_or_concat with hp | ⟨q, t, hp⟩
  · exact absurd hp (splitNL_ne_nil W)
  rw [List.concat_eq_append] at hp
  have hmapid : ∀ q' : List (List Nat), (∀ x ∈ q', x ∈ splitNL W) → q'.map stripCR = q' :=
    fun q' hsub => map_stripCR_id
      (fun x hx hc => h13 (mem_splitNL_subset (hsub x hx) hc))
  have hrl : rustLines W =
      (splitNL W).dropLast ++ (if (splitNL W).getLastD [] = [] then []
        else [(splitNL W).getLastD []]) := by
    unfold rustLines
    rw [if_neg hW, hmapid _ (fun x hx => (List.dropLast_sublist _).mem hx)]
  by_cases ht : t = []
  · -- W ends with a terminator; its last kept line is the last entry of q
    subst ht
    rw [hp, List.getLastD_concat, List.dropLast_concat, if_pos rfl,
        List.append_nil] at hrl
    have hq2 : 1 < q.length := by rw [hrl] at h2; simpa using h2
    rcases q.eq_nil_or_concat with hq | ⟨ini, lst, hq⟩
    · simp [hq] at hq2
    rw [List.concat_eq_append] at hq
    have hini : ini ≠ [] := by rintro rfl; simp [hq] at hq2
    refine ⟨ini, lst, lst ++ [10], by rw [hrl, hq], hini, ?_, Or.inr rfl, ?_, ?_, ?_⟩
    · have : W = joinNL (q ++ [[]]) := by rw [← hp, hjoin]
      rw [this, joinNL_concat (by rintro rfl; simp at hq2) [], hq,
          joinNL_concat hini lst]
      simp
    · intro hmem
      exact mem_splitNL_no_nl (s := W)
        (by rw [hp, hq]; simp) hmem
    · intro hmem
      exact h13 (mem_splitNL_subset (s := W)
        (show lst ∈ splitNL W by rw [hp, hq]; simp) hmem)
    · rw [hrl, hq]
      unfold beforeLen
      rw [List.dropLast_concat]
  · -- W has no trailing terminator; its last line is the final segment t
    rw [hp, List.getLastD_concat, List.dropLast_concat, if_neg ht] at hrl
    have hq' : q ≠ [] := by
      rintro rfl
      rw [hrl] at h2
      simp at h2
    refine ⟨q, t, t, hrl, hq', ?_, Or.inl ⟨rfl, ht⟩, ?_, ?_, ?_⟩
    · have : W = joinNL (q ++ [t]) := by rw [← hp, hjoin]
      rw [this, joinNL_concat hq' t]
    · intro hmem
      exact mem_splitNL_no_nl (s := W) (by rw [hp]; simp) hmem
    · intro hmem
      exact h13 (mem_splitNL_subset (s := W)
        (show t ∈ splitNL W by rw [hp]; simp) hmem)
    · rw [hrl]
      unfold beforeLen
      rw [List.dropLast_concat]

theorem rustLines_break (X lst rest : List Nat)
    (h10 : (10 : Nat) ∉ lst) (h13 : (13 : Nat) ∉ lst)
    (hr : (rest = lst ∧ lst ≠ []) ∨ rest = lst ++ [10]) :
    rustLines (X ++ 10 :: rest) = rustLines (X ++ [10]) ++ [lst] := by
  have hQ : splitNL (X ++ [10]) = splitNL X ++ [[]] := by
    have : X ++ [10] = X ++ 10 :: ([] : List Nat) := rfl
    rw [this, splitNL_append_cons]
    rfl
  have hrlQ : rustLines (X ++ [10]) = (splitNL X).map stripCR := by
    unfold rustLines
    rw [if_neg (by simp), hQ, List.getLastD_concat, List.dropLast_concat, if_pos rfl,
        List.append_nil]
  rcases hr with ⟨rfl, hlst⟩ | rfl
  · have hP : splitNL (X ++ 10 :: rest) = splitNL X ++ [rest] := by
      rw [splitNL_append_cons, splitNL_of_no_nl h10]
    rw [hrlQ]
    unfold rustLines
    rw [if_neg (by simp), hP, List.getLastD_concat, List.dropLast_concat, if_neg hlst]
  · have hP : splitNL (X ++ 10 :: (lst ++ [10])) = (splitNL X ++ [lst]) ++ [[]] := by
      have h0 : lst ++ [10] = lst ++ 10 :: ([] : List Nat) := rfl
      rw [h0, splitNL_append_cons, splitNL_append_cons, splitNL_of_no_nl h10]
      simp [splitNL]
    rw [hrlQ]
    unfold rustLines
    rw [if_neg (by simp), hP, List.getLastD_concat, List.dropLast_concat, if_pos rfl,
        List.append_nil, List.map_append]
    simp [stripCR_of_no13 h13]

theorem fwdLines_break (X lst rest : List Nat)
    (h10 : (10 : Nat) ∉ lst) (h13 : (13 : Nat) ∉ lst)
    (hr : (rest = lst ∧ lst ≠ []) ∨ rest = lst ++ [10]) :
    fwdLines (X ++ 10 :: rest)
      = fwdLines (X ++ [10]) ++ (if trimB lst = [] then [] else [trimB lst]) := by
  unfold fwdLines
  rw [rustLines_break X lst rest h10 h13 hr, List.map_append, List.filter_append]
  congr 1
  by_cases h : trimB lst = [] <;> simp [h]

/-- A source whose line list is a single line is that line, with or
without one trailing terminator. -/
theorem rustLines_single {P l0 : List Nat} (h13 : (13 : Nat) ∉ P)
    (h : rustLines P = [l0]) : P = l0 ∨ P = l0 ++ [10] := by
  have hP : P ≠ [] := by rintro rfl; simp [rustLines] at h
  have hjoin := joinNL_splitNL P
  rcases (splitNL P).eq_nil_or_concat with hp | ⟨q, t, hp⟩
  · exact absurd hp (splitNL_ne_nil P)
  rw [List.concat_eq_append] at hp
  have hmapid : q.map stripCR = q := by
    refine map_stripCR_id (fun x hx hc => h13 (mem_splitNL_subset (s := P) ?_ hc))
    rw [hp]
    exact List.mem_append.2 (Or.inl hx)
  unfold rustLines at h
  rw [if_neg hP, hp, List.getLastD_concat, List.dropLast_concat, hmapid] at h
  by_cases ht : t = []
  · rw [if_pos ht, List.append_nil] at h
    subst h
    right
    rw [← hjoin, hp, ht, joinNL_concat (by simp) []]
    simp [joinNL]
  · rw [if_neg ht] at h
    have hq : q = [] := by
      cases q with
      | nil => rfl
      | cons a b => simp at h
    subst hq
    left
    have : t = l0 := by simpa using h
    subst this
    rw [← hjoin, hp]
    simp [joinNL]

/-! ### Invariants of the reverse scan loop -/

theorem revLoopF_succ (src : List Nat) (c fuel E low : Nat) :
    revLoopF src c (fuel + 1) E low =
      if low = 0 then (none, E)
      else if min c low = 0 then (none, E)
      else if (rustLines (window src E (chunkStart c low))).length > 1
          ∨ ((rustLines (window src E (chunkStart c low))).length = 1
              ∧ chunkStart c low = 0) then
        if trimB ((rustLines (window src E (chunkStart c low))).getLastD []) = [] then
          if (rustLines (window src E (chunkStart c low))).length > 1 then
            revLoopF src c fuel
              (chunkStart c low
                + beforeLen (rustLines (window src E (chunkStart c low))))
              (chunkStart c low
                + beforeLen (rustLines (window src E (chunkStart c low))))
          else
            if chunkStart c low = 0 then
              if window src E (chunkStart c low) ≠ []
                  ∧ trimB (window src E (chunkStart c low)) ≠ [] then
                (some (trimB (window src E (chunkStart c low))), 0)
              else (none, E)
            else revLoopF src c fuel E (chunkStart c low)
        else
          (some (trimB ((rustLines (window src E (chunkStart c low))).getLastD [])),
            if (rustLines (window src E (chunkStart c low))).length > 1 then
              chunkStart c low
                + beforeLen (rustLines (window src E (chunkStart c low)))
            else chunkStart c low)
      else
        if chunkStart c low = 0 then
          if window src E (chunkStart c low) ≠ []
              ∧ trimB (window src E (chunkStart c low)) ≠ [] then
            (some (trimB (window src E (chunkStart c low))), 0)
          else (none, E)
        else revLoopF src c fuel E (chunkStart c low) := rfl

theorem window_length_le (src : List Nat) (E s : Nat) :
    (window src E s).length ≤ E - s := by
  unfold window
  simp [List.length_take]

/-- In a branch where the window holds more than one line, the blank-reset
or emission position `chunk_start + beforeLen` lies strictly below `E`. -/
theorem reset_lt {src : List Nat} {c E low : Nat}
    (hgt : (rustLines (window src E (chunkStart c low))).length > 1) :
    chunkStart c low + beforeLen (rustLines (window src E (chunkStart c low))) < E := by
  set s := chunkStart c low
  have hblt := beforeLen_lt hgt
  have hwl := window_length_le src E s
  have hsE : s < E := by
    by_contra hsE
    have : E - s = 0 := by omega
    have hwin : window src E s = [] := by
      unfold window
      rw [this]
      rfl
    rw [hwin] at hgt
    simp [rustLines] at hgt
  omega

theorem revLoopF_snd_le (src : List Nat) (c : Nat) :
    ∀ fuel E low, (revLoopF src c fuel E low).2 ≤ E := by
  intro fuel
  induction fuel with
  | zero => intro E low; exact le_rfl
  | succ fuel ih =>
    intro E low
    rw [revLoopF_succ]
    by_cases h0 : low = 0
    · rw [if_pos h0]
    rw [if_neg h0]
    by_cases hcs : min c low = 0
    · rw [if_pos hcs]
    rw [if_neg hcs]
    set s := chunkStart c low with hs
    set W := window src E s with hW
    set ls := rustLines W with hls
    by_cases hcond : ls.length > 1 ∨ (ls.length = 1 ∧ s = 0)
    · rw [if_pos hcond]
      by_cases hblank : trimB (ls.getLastD []) = []
      · rw [if_pos hblank]
        by_cases hgt : ls.length > 1
        · rw [if_pos hgt]
          exact le_trans (ih _ _) (le_of_lt (reset_lt hgt))
        · rw [if_neg hgt]
          by_cases hsz : s = 0
          · rw [if_pos hsz]
            split
            · exact Nat.zero_le E
            · exact le_rfl
          · rw [if_neg hsz]
            exact ih _ _
      · rw [if_neg hblank]
        by_cases hgt : ls.length > 1
        · rw [if_pos hgt]
          exact le_of_lt (reset_lt hgt)
        · rw [if_neg hgt]
          have hsz : s = 0 := (hcond.resolve_left hgt).2
          simp [hsz]
    · rw [if_neg hcond]
      by_cases hsz : s = 0
      · rw [if_pos hsz]
        split
        · exact Nat.zero_le E
        · exact le_rfl
      · rw [if_neg hsz]
        exact ih _ _

theorem revLoopF_some_lt (src : List Nat) (c : Nat) :
    ∀ fuel E low l p, revLoopF src c fuel E low = (some l, p) → p < E := by
  intro fuel
  induction fuel with
  | zero => intro E low l p h; simp [revLoopF] at h
  | succ fuel ih =>
    intro E low l p h
    rw [revLoopF_succ] at h
    by_cases h0 : low = 0
    · rw [if_pos h0] at h; simp at h
    rw [if_neg h0] at h
    by_cases hcs : min c low = 0
    · rw [if_pos hcs] at h; simp at h
    rw [if_neg hcs] at h
    set s := chunkStart c low with hs
    set W := window src E s with hW
    set ls := rustLines W with hls
    have hWne_of : W ≠ [] → 0 < E - s := by
      intro hne
      by_contra hc
      have hz : E - s = 0 := by omega
      apply hne
      rw [hW]
      unfold window
      rw [hz]
      rfl
    by_cases hcond : ls.length > 1 ∨ (ls.length = 1 ∧ s = 0)
    · rw [if_pos hcond] at h
      by_cases hblank : trimB (ls.getLastD []) = []
      · rw [if_pos hblank] at h
        by_cases hgt : ls.length > 1
        · rw [if_pos hgt] at h
          exact lt_trans (ih _ _ _ _ h) (reset_lt hgt)
        · rw [if_neg hgt] at h
          by_cases hsz : s = 0
          · rw [if_pos hsz] at h
            split at h
            · rename_i hcondW
              cases h
              have := hWne_of hcondW.1
              omega
            · simp at h
          · rw [if_neg hsz] at h
            exact ih _ _ _ _ h
      · rw [if_neg hblank] at h
        by_cases hgt : ls.length > 1
        · rw [if_pos hgt] at h
          cases h
          exact reset_lt hgt
        · rw [if_neg hgt] at h
          have hsz : s = 0 := (hcond.resolve_left hgt).2
          have hlen1 : ls.length = 1 := (hcond.resolve_left hgt).1
          have hWne : W ≠ [] := by
            intro hc
            rw [hls, hc] at hlen1
            simp [rustLines] at hlen1
          rw [Prod.mk.injEq] at h
          obtain ⟨-, h2⟩ := h
          have := hWne_of hWne
          omega
    · rw [if_neg hcond] at h
      by_cases hsz : s = 0
      · rw [if_pos hsz] at h
        split at h
        · rename_i hcondW
          cases h
          have := hWne_of hcondW.1
          omega
        · simp at h
      · rw [if_neg hsz] at h
        exact ih _ _ _ _ h

theorem getLastD_mem {α : Type} {l : List α} (d : α) (h : l ≠ []) : l.getLastD d ∈ l := by
  rw [List.getLastD_eq_getLast?, List.getLast?_eq_getLast _ h]
  exact List.getLast_mem h

theorem window_subset {src : List Nat} {E s : Nat} {b : Nat}
    (h : b ∈ window src E s) : b ∈ src := by
  unfold window at h
  exact (List.drop_sublist s src).mem ((List.take_sublist _ _).mem h)

theorem getLastD_mem_lines {W : List Nat} {b : Nat}
    (hne : rustLines W ≠ []) (hb : b ∈ (rustLines W).getLastD []) : b ∈ W :=
  mem_rustLines_subset (getLastD_mem [] hne) hb

/-- Every line returned by the scan loop is nonempty, trimmed, and made of
source bytes. -/
theorem revLoopF_some_line (src : List Nat) (c : Nat) :
    ∀ fuel E low l p, revLoopF src c fuel E low = (some l, p) →
      l ≠ [] ∧ trimB l = l ∧ ∀ b ∈ l, b ∈ src := by
  intro fuel
  induction fuel with
  | zero => intro E low l p h; simp [revLoopF] at h
  | succ fuel ih =>
    intro E low l p h
    rw [revLoopF_succ] at h
    by_cases h0 : low = 0
    · rw [if_pos h0] at h; simp at h
    rw [if_neg h0] at h
    by_cases hcs : min c low = 0
    · rw [if_pos hcs] at h; simp at h
    rw [if_neg hcs] at h
    set s := chunkStart c low with hs
    set W := window src E s with hW
    set ls := rustLines W with hls
    have hfall : ∀ hq : Option (List Nat) × Nat,
        hq = (if s = 0 then
          (if W ≠ [] ∧ trimB W ≠ [] then (some (trimB W), 0) else (none, E))
          else revLoopF src c fuel E s) → hq = (some l, p) →
        l ≠ [] ∧ trimB l = l ∧ ∀ b ∈ l, b ∈ src := by
      intro hq hqdef hqeq
      subst hqdef
      by_cases hsz : s = 0
      · rw [if_pos hsz] at hqeq
        split at hqeq
        · rename_i hcondW
          rw [Prod.mk.injEq] at hqeq
          obtain ⟨h1, -⟩ := hqeq
          obtain ⟨h1⟩ := h1
          refine ⟨hcondW.2, trimB_idem W, ?_⟩
          intro b hb
          exact window_subset (s := s) (hW ▸ trimB_subset hb)
        · simp at hqeq
      · rw [if_neg hsz] at hqeq
        exact ih _ _ _ _ hqeq
    by_cases hcond : ls.length > 1 ∨ (ls.length = 1 ∧ s = 0)
    · rw [if_pos hcond] at h
      by_cases hblank : trimB (ls.getLastD []) = []
      · rw [if_pos hblank] at h
        by_cases hgt : ls.length > 1
        · rw [if_pos hgt] at h
          exact ih _ _ _ _ h
        · rw [if_neg hgt] at h
          exact hfall _ rfl h
      · rw [if_neg hblank] at h
        rw [Prod.mk.injEq] at h
        obtain ⟨h1, -⟩ := h
        obtain ⟨h1⟩ := h1
        have hlsne : ls ≠ [] := by
          intro hc
          rw [hc] at hblank
          simp [trimB] at hblank
        refine ⟨hblank, trimB_idem _, ?_⟩
        intro b hb
        have hbW : b ∈ W := getLastD_mem_lines (hls ▸ hlsne) (hls ▸ trimB_subset hb)
        exact window_subset (s := s) (hW ▸ hbW)
    · rw [if_neg hcond] at h
      exact hfall _ rfl h

/-- Over a source of nothing but whitespace the scan loop never produces a
line. -/
theorem revLoopF_allWS {src : List Nat} (hws : ∀ b ∈ src, isWs b) (c : Nat) :
    ∀ fuel E low, (revLoopF src c fuel E low).1 = none := by
  intro fuel E low
  cases hr : revLoopF src c fuel E low with
  | mk o q =>
    cases o with
    | none => rfl
    | some l =>
      obtain ⟨hne, -, hsub⟩ := revLoopF_some_line src c fuel E low l q hr
      exact absurd (trimB_nil_of_allWS (l := l) (fun b hb => hws b (hsub b hb)))
        (by
          have : trimB l = l := (revLoopF_some_line src c fuel E low l q hr).2.1
          rw [this]
          exact hne)

theorem fwdLines_nil : fwdLines [] = [] := rfl

/-- Specification of one scan-loop run on a carriage-return-free source:
with sufficient fuel, either no line is produced and the prefix `src[0,E)`
has no non-blank line at all, or the produced line is the last non-blank
line of the prefix, and the updated `file_pos` cuts the prefix exactly
after the remaining forward lines. -/
theorem revLoopF_spec (src : List Nat) (c : Nat) (hcr : (13 : Nat) ∉ src) :
    ∀ fuel E low, E * E + E + low < fuel → 1 ≤ c → 0 < low → low ≤ E →
      E ≤ src.length →
      ((revLoopF src c fuel E low).1 = none → fwdLines (src.take E) = []) ∧
      (∀ l p, revLoopF src c fuel E low = (some l, p) →
        p < E ∧ fwdLines (src.take p) = (fwdLines (src.take E)).dropLast ∧
        (fwdLines (src.take E)).getLast? = some l) := by
  intro fuel
  induction fuel with
  | zero => intro E low hfuel; exact absurd hfuel (by omega)
  | succ fuel ih =>
    intro E low hfuel hc hlow hle hlen
    have hmin : 1 ≤ min c low := le_min hc hlow
    have hslow : chunkStart c low < low := by unfold chunkStart; omega
    rw [revLoopF_succ]
    rw [if_neg (by omega : ¬low = 0), if_neg (by omega : ¬min c low = 0)]
    set s := chunkStart c low with hs
    set W := window src E s with hWdef
    set ls := rustLines W with hlsdef
    have hsE : s < E := lt_of_lt_of_le hslow hle
    have hWP : W = (src.take E).drop s := by
      rw [hWdef]
      unfold window
      rw [List.drop_take]
    have hPsplit : src.take s ++ W = src.take E := by
      have h1 : (src.take E).take s = src.take s := by
        rw [List.take_take, min_eq_left (le_of_lt hsE)]
      rw [hWP, ← h1, List.take_append_drop]
    have hlenP : (src.take E).length = E := by
      rw [List.length_take, min_eq_left hlen]
    have hlenA : (src.take s).length = s := by
      rw [List.length_take, min_eq_left (le_trans (le_of_lt hsE) hlen)]
    have h13W : (13 : Nat) ∉ W := fun hmem => hcr (window_subset (hWdef ▸ hmem))
    by_cases hcond : ls.length > 1 ∨ (ls.length = 1 ∧ s = 0)
    · rw [if_pos hcond]
      by_cases hgt : ls.length > 1
      · -- more than one line in the window: the last line of the whole
        -- prefix is resolved, and the cut position is exact.
        have hgt' : 1 < (rustLines W).length := by rw [← hlsdef]; exact hgt
        obtain ⟨ini, lst, rest, hrw, hini, hWform, hrest, h10, h13l, hbl⟩ :=
          rustLines_decomp h13W hgt'
        set E2 := s + beforeLen ls with hE2
        have hbl' : beforeLen ls = (joinNL ini).length + 1 := by
          rw [hlsdef]; exact hbl
        have hwl : W.length ≤ E - s := hWdef ▸ window_length_le src E s
        have hblt : beforeLen ls < W.length := hlsdef ▸ beforeLen_lt hgt'
        have hE2lt : E2 < E := by rw [hE2]; omega
        have hE2pos : 0 < E2 := by
          rw [hE2]
          unfold beforeLen
          omega
        have hEform : src.take E = (src.take s ++ joinNL ini) ++ 10 :: rest := by
          rw [← hPsplit, hWform]
          exact (List.append_assoc _ _ _).symm
        have hQ : src.take E2 = (src.take s ++ joinNL ini) ++ [10] := by
          have hform : src.take E = ((src.take s ++ joinNL ini) ++ [10]) ++ rest := by
            rw [hEform, show (10 :: rest : List Nat) = [10] ++ rest from rfl,
              ← List.append_assoc]
          have hQlen : ((src.take s ++ joinNL ini) ++ [10]).length = E2 := by
            simp only [List.length_append, List.length_cons, List.length_nil, hlenA]
            rw [hE2, hbl']
            omega
          have htt : src.take E2 = (src.take E).take E2 := by
            rw [List.take_take, min_eq_left (le_of_lt hE2lt)]
          rw [htt, hform, List.take_left' hQlen]
        have hfwdE : fwdLines (src.take E)
            = fwdLines (src.take E2) ++ (if trimB lst = [] then [] else [trimB lst]) := by
          rw [hEform, hQ]
          exact fwdLines_break (src.take s ++ joinNL ini) lst rest h10 h13l hrest
        have hlstD : ls.getLastD [] = lst := by
          rw [hlsdef, hrw, List.getLastD_concat]
        have hm2 : E2 * E2 + E2 + E2 < fuel := by
          have h1 : E2 + 1 ≤ E := hE2lt
          have h2 : (E2 + 1) * (E2 + 1) ≤ E * E := Nat.mul_le_mul h1 h1
          have h3 : (E2 + 1) * (E2 + 1) = E2 * E2 + 2 * E2 + 1 := by ring
          have h4 : E * E + E + low ≤ fuel := by omega
          linarith
        by_cases hblank : trimB (ls.getLastD []) = []
        · -- blank last line: skip it and continue on the shortened prefix
          rw [if_pos hblank, if_pos hgt]
          have hfwdeq : fwdLines (src.take E) = fwdLines (src.take E2) := by
            rw [hfwdE, if_pos (hlstD ▸ hblank)]
            simp
          obtain ⟨ihn, ihs⟩ :=
            ih E2 E2 hm2 hc hE2pos le_rfl (le_trans (le_of_lt hE2lt) hlen)
          constructor
          · intro hn
            rw [hfwdeq]
            exact ihn hn
          · intro l p hp
            obtain ⟨hplt, hd, hg⟩ := ihs l p hp
            refine ⟨lt_trans hplt hE2lt, ?_, ?_⟩
            · rw [hfwdeq]
              exact hd
            · rw [hfwdeq]
              exact hg
        · -- emit the last line of the prefix; file_pos points at its start
          rw [if_neg hblank, if_pos hgt]
          have htrim_ne : trimB lst ≠ [] := by
            rw [← hlstD]
            exact hblank
          have hfwdE' : fwdLines (src.take E)
              = fwdLines (src.take E2) ++ [trimB lst] := by
            rw [hfwdE, if_neg htrim_ne]
          constructor
          · intro hn
            simp at hn
          · intro l p hp
            rw [Prod.mk.injEq] at hp
            obtain ⟨h1, h2⟩ := hp
            have hl : l = trimB lst := by
              rw [← Option.some.inj h1, hlstD]
            refine ⟨?_, ?_, ?_⟩
            · omega
            · rw [← h2, hfwdE', List.dropLast_concat]
            · rw [hfwdE', List.getLast?_concat, hl]
      · -- a single line covering the whole prefix (chunk start reached 0)
        have hlen1 : ls.length = 1 := (hcond.resolve_left hgt).1
        have hsz : s = 0 := (hcond.resolve_left hgt).2
        obtain ⟨l0, hl0⟩ := List.length_eq_one.1 hlen1
        have hW0 : W = src.take E := by
          rw [hWP, hsz, List.drop_zero]
        have hrlW : rustLines W = [l0] := by
          rw [← hlsdef]
          exact hl0
        have hrl0 : rustLines (src.take E) = [l0] := by
          rw [← hW0]
          exact hrlW
        have hfwdP : fwdLines (src.take E)
            = if trimB l0 = [] then [] else [trimB l0] := by
          unfold fwdLines
          rw [hrl0]
          by_cases h : trimB l0 = [] <;> simp [h]
        by_cases hblank : trimB (ls.getLastD []) = []
        · rw [if_pos hblank, if_neg hgt, if_pos hsz]
          have hbl0 : trimB l0 = [] := by
            rw [hl0] at hblank
            simpa using hblank
          have hWtrim : trimB W = [] := by
            rcases rustLines_single h13W hrlW with h | h
            · rw [h]
              exact hbl0
            · rw [h, trimB_append_nl]
              exact hbl0
          rw [if_neg (fun hcon => hcon.2 hWtrim)]
          constructor
          · intro _
            rw [hfwdP, if_pos hbl0]
          · intro l p hp
            simp at hp
        · rw [if_neg hblank, if_neg hgt]
          have hbl0 : trimB l0 ≠ [] := by
            rw [hl0] at hblank
            simpa using hblank
          constructor
          · intro hn
            simp at hn
          · intro l p hp
            rw [Prod.mk.injEq] at hp
            obtain ⟨h1, h2⟩ := hp
            have hl : l = trimB l0 := by
              rw [← Option.some.inj h1, hl0]
              simp
            refine ⟨?_, ?_, ?_⟩
            · omega
            · rw [← h2, hsz]
              show fwdLines (src.take 0) = (fwdLines (src.take E)).dropLast
              rw [List.take_zero, fwdLines_nil, hfwdP, if_neg hbl0]
              simp
            · rw [hfwdP, if_neg hbl0, hl]
              simp
    · rw [if_neg hcond]
      by_cases hsz : s = 0
      · exfalso
        have hWne : W ≠ [] := by
          rw [hWP, hsz, List.drop_zero]
          intro hcon
          have hlc := congrArg List.length hcon
          rw [hlenP] at hlc
          simp at hlc
          omega
        have h1 : 0 < ls.length := by
          rw [hlsdef]
          exact List.length_pos.2 (rustLines_ne_nil hWne)
        apply hcond
        rcases Nat.lt_or_ge 1 ls.length with h | h
        · exact Or.inl h
        · exact Or.inr ⟨by omega, hsz⟩
      · rw [if_neg hsz]
        have hm : E * E + E + s < fuel := by
          have h4 : E * E + E + low ≤ fuel := by omega
          have : s < low := hslow
          linarith
        exact ih E s hm hc (Nat.pos_of_ne_zero hsz) (le_of_lt hsE) hlen

/-! ### One `poll_next_line_reverse` call, and the full reverse stream -/

theorem revNext_some_lt {src : List Nat} {c fp : Nat} {l : List Nat} {p : Nat}
    (h : revNext src c fp = (some l, p)) : p < fp := by
  unfold revNext at h
  split at h
  · simp at h
  · exact revLoopF_some_lt src c _ fp fp l p h

theorem revNext_snd_le (src : List Nat) (c fp : Nat) : (revNext src c fp).2 ≤ fp := by
  unfold revNext
  split
  · exact le_rfl
  · exact revLoopF_snd_le src c _ fp fp

theorem revNext_spec (src : List Nat) (c : Nat) (hcr : (13 : Nat) ∉ src)
    (hc : 1 ≤ c) (fp : Nat) (hfp : fp ≤ src.length) :
    ((revNext src c fp).1 = none → fwdLines (src.take fp) = []) ∧
    (∀ l p, revNext src c fp = (some l, p) →
      p < fp ∧ fwdLines (src.take p) = (fwdLines (src.take fp)).dropLast ∧
      (fwdLines (src.take fp)).getLast? = some l) := by
  unfold revNext
  by_cases hz : src.length = 0
  · rw [if_pos hz]
    have hsrc : src = [] := List.length_eq_zero.1 hz
    constructor
    · intro _
      rw [hsrc]
      simp [fwdLines_nil]
    · intro l p hp
      simp at hp
  · rw [if_neg hz]
    by_cases hfpz : fp = 0
    · subst hfpz
      rw [show (0 * 0 + 0 + 0 + 1 : Nat) = 1 from rfl]
      constructor
      · intro _
        rw [List.take_zero, fwdLines_nil]
      · intro l p hp
        rw [revLoopF_succ] at hp
        rw [if_pos rfl] at hp
        simp at hp
    · exact revLoopF_spec src c hcr (fp * fp + fp + fp + 1) fp fp (by omega) hc
        (Nat.pos_of_ne_zero hfpz) le_rfl hfp

theorem revLinesAuxF_spec (src : List Nat) (c : Nat) (hcr : (13 : Nat) ∉ src)
    (hc : 1 ≤ c) :
    ∀ fuel fp, fp < fuel → fp ≤ src.length →
      revLinesAuxF src c fuel fp = (fwdLines (src.take fp)).reverse := by
  intro fuel
  induction fuel with
  | zero => intro fp h; exact absurd h (by omega)
  | succ fuel ih =>
    intro fp hfuel hfp
    show (match revNext src c fp with
      | (none, _) => []
      | (some l, p) => l :: revLinesAuxF src c fuel p)
      = (fwdLines (src.take fp)).reverse
    obtain ⟨hnone, hsome⟩ := revNext_spec src c hcr hc fp hfp
    cases hr : revNext src c fp with
    | mk o q =>
      cases o with
      | none =>
        rw [hnone (by rw [hr])]
        rfl
      | some l =>
        obtain ⟨hlt, hd, hg⟩ := hsome l q hr
        have hFne : fwdLines (src.take fp) ≠ [] := by
          intro hcon
          rw [hcon] at hg
          simp at hg
        have hgl : fwdLines (src.take fp) =
            (fwdLines (src.take fp)).dropLast ++ [l] := by
          have h1 := List.dropLast_append_getLast hFne
          rw [List.getLast?_eq_getLast _ hFne] at hg
          have h2 : (fwdLines (src.take fp)).getLast hFne = l := by
            exact Option.some.inj hg
          rw [← h2]
          exact h1.symm
        simp only []
        rw [ih q (by omega) (le_trans (le_of_lt hlt) hfp), hd]
        calc l :: ((fwdLines (src.take fp)).dropLast).reverse
            = ((fwdLines (src.take fp)).dropLast ++ [l]).reverse := by
              rw [List.reverse_append]
              rfl
          _ = (fwdLines (src.take fp)).reverse := by rw [← hgl]

/-- The central round-trip law for carriage-return-free sources: the
reverse reader's full output is the reverse of the forward reader's
non-blank lines, for every capacity at least 1. -/
theorem revLines_eq_reverse_fwd {src : List Nat} {c : Nat}
    (hcr : (13 : Nat) ∉ src) (hc : 1 ≤ c) :
    revLines src c = (fwdLines src).reverse := by
  unfold revLines
  rw [revLinesAuxF_spec src c hcr hc (src.length + 1) src.length (by omega) le_rfl,
    List.take_length]

/-! ### Agreement of the lossy-decoding model with the ASCII model -/

theorem revLoopFL_succ (src : List Nat) (c fuel E low : Nat) :
    revLoopFL src c (fuel + 1) E low =
      if low = 0 then (none, E)
      else if min c low = 0 then (none, E)
      else if (rustLines (lossyDecode (window src E (chunkStart c low)))).length > 1
          ∨ ((rustLines (lossyDecode (window src E (chunkStart c low)))).length = 1
              ∧ chunkStart c low = 0) then
        if trimB ((rustLines
            (lossyDecode (window src E (chunkStart c low)))).getLastD []) = [] then
          if (rustLines (lossyDecode (window src E (chunkStart c low)))).length > 1 then
            revLoopFL src c fuel
              (chunkStart c low
                + beforeLen (rustLines (lossyDecode (window src E (chunkStart c low)))))
              (chunkStart c low
                + beforeLen (rustLines (lossyDecode (window src E (chunkStart c low)))))
          else
            if chunkStart c low = 0 then
              if window src E (chunkStart c low) ≠ []
                  ∧ trimB (lossyDecode (window src E (chunkStart c low))) ≠ [] then
                (some (trimB (lossyDecode (window src E (chunkStart c low)))), 0)
              else (none, E)
            else revLoopFL src c fuel E (chunkStart c low)
        else
          (some (trimB ((rustLines
              (lossyDecode (window src E (chunkStart c low)))).getLastD [])),
            if (rustLines (lossyDecode (window src E (chunkStart c low)))).length > 1 then
              chunkStart c low
                + beforeLen (rustLines (lossyDecode (window src E (chunkStart c low))))
            else chunkStart c low)
      else
        if chunkStart c low = 0 then
          if window src E (chunkStart c low) ≠ []
              ∧ trimB (lossyDecode (window src E (chunkStart c low))) ≠ [] then
            (some (trimB (lossyDecode (window src E (chunkStart c low)))), 0)
          else (none, E)
        else revLoopFL src c fuel E (chunkStart c low) := rfl

theorem lossyStep_ascii {b : Nat} (hb : b < 128) :
    lossyStep lossyStart b = ([b], lossyStart) := by
  unfold lossyStep lossyStart lossyLead
  simp only []
  rw [if_pos trivial, if_pos (by omega : b ≤ 127)]
  rfl

theorem lossyDecode_ascii {s : List Nat} (h : ∀ b ∈ s, b < 128) :
    lossyDecode s = s := by
  unfold lossyDecode
  induction s with
  | nil => rfl
  | cons b t ih =>
    rw [lossyGo, lossyStep_ascii (h b (List.mem_cons_self b t))]
    rw [ih (fun x hx => h x (List.mem_cons_of_mem b hx))]
    rfl

theorem revLoopFL_agree {src : List Nat} (hascii : ∀ b ∈ src, b < 128) (c : Nat) :
    ∀ fuel E low, revLoopFL src c fuel E low = revLoopF src c fuel E low := by
  intro fuel
  induction fuel with
  | zero => intro E low; rfl
  | succ fuel ih =>
    intro E low
    rw [revLoopFL_succ, revLoopF_succ]
    have hdec : lossyDecode (window src E (chunkStart c low))
        = window src E (chunkStart c low) :=
      lossyDecode_ascii (fun b hb => hascii b (window_subset hb))
    rw [hdec]
    simp only [ih]

theorem revNextL_agree {src : List Nat} (hascii : ∀ b ∈ src, b < 128)
    (c fp : Nat) : revNextL src c fp = revNext src c fp := by
  unfold revNextL revNext
  by_cases h : src.length = 0
  · rw [if_pos h, if_pos h]
  · rw [if_neg h, if_neg h, revLoopFL_agree hascii]

theorem revLinesAuxFL_agree {src : List Nat} (hascii : ∀ b ∈ src, b < 128)
    (c : Nat) : ∀ fuel fp,
      revLinesAuxFL src c fuel fp = revLinesAuxF src c fuel fp := by
  intro fuel
  induction fuel with
  | zero => intro fp; rfl
  | succ fuel ih =>
    intro fp
    show (match revNextL src c fp with
      | (none, _) => []
      | (some l, p) => l :: revLinesAuxFL src c fuel p)
      = (match revNext src c fp with
      | (none, _) => []
      | (some l, p) => l :: revLinesAuxF src c fuel p)
    rw [revNextL_agree hascii]
    cases revNext src c fp with
    | mk o q =>
      cases o with
      | none => rfl
      | some l => simp only [ih]

theorem revLinesL_agree {src : List Nat} (hascii : ∀ b ∈ src, b < 128)
    (c : Nat) : revLinesL src c = revLines src c := by
  unfold revLinesL revLines
  exact revLinesAuxFL_agree hascii c _ _

/-! ### Blank-line filtering facts for all four readers -/

theorem headD_mem {α : Type} {l : List α} (d : α) (h : l ≠ []) : l.headD d ∈ l := by
  cases l with
  | nil => exact absurd rfl h
  | cons a t => exact List.mem_cons_self a t

theorem mem_fwdLines {s l : List Nat} (h : l ∈ fwdLines s) :
    l ≠ [] ∧ trimB l = l := by
  unfold fwdLines at h
  have h1 := List.of_mem_filter h
  have h2 := List.mem_of_mem_filter h
  rcases List.mem_map.1 h2 with ⟨seg, -, rfl⟩
  exact ⟨by simpa using h1, trimB_idem seg⟩

theorem fwdLines_allWS {s : List Nat} (hws : ∀ b ∈ s, isWs b) : fwdLines s = [] := by
  unfold fwdLines
  rw [List.filter_eq_nil_iff]
  intro a ha
  rcases List.mem_map.1 ha with ⟨seg, hseg, rfl⟩
  have : trimB seg = [] :=
    trimB_nil_of_allWS (fun b hb => hws b (mem_rustLines_subset hseg hb))
  simp [this]

theorem revNext_some_line {src : List Nat} {c fp : Nat} {l : List Nat} {p : Nat}
    (h : revNext src c fp = (some l, p)) :
    l ≠ [] ∧ trimB l = l ∧ ∀ b ∈ l, b ∈ src := by
  unfold revNext at h
  split at h
  · simp at h
  · exact revLoopF_some_line src c _ fp fp l p h

theorem revLinesAuxF_mem (src : List Nat) (c : Nat) :
    ∀ fuel fp l, l ∈ revLinesAuxF src c fuel fp →
      l ≠ [] ∧ trimB l = l ∧ ∀ b ∈ l, b ∈ src := by
  intro fuel
  induction fuel with
  | zero => intro fp l h; simp [revLinesAuxF] at h
  | succ fuel ih =>
    intro fp l h
    have hshow : revLinesAuxF src c (fuel + 1) fp =
        (match revNext src c fp with
          | (none, _) => []
          | (some l', p) => l' :: revLinesAuxF src c fuel p) := rfl
    rw [hshow] at h
    cases hr : revNext src c fp with
    | mk o q =>
      rw [hr] at h
      cases o with
      | none => simp at h
      | some l' =>
        simp only [] at h
        rcases List.mem_cons.1 h with rfl | h
        · exact revNext_some_line hr
        · exact ih q l h

theorem revLines_mem {src : List Nat} {c : Nat} {l : List Nat}
    (h : l ∈ revLines src c) : l ≠ [] ∧ trimB l = l ∧ ∀ b ∈ l, b ∈ src :=
  revLinesAuxF_mem src c _ _ l h

theorem revLines_allWS {src : List Nat} (hws : ∀ b ∈ src, isWs b) (c : Nat) :
    revLines src c = [] := by
  unfold revLines
  cases hr : revLinesAuxF src c (src.length + 1) src.length with
  | nil => rfl
  | cons l t =>
    exfalso
    obtain ⟨hne, htr, hsub⟩ :=
      revLinesAuxF_mem src c _ _ l (hr ▸ List.mem_cons_self l t)
    have : trimB l = [] := trimB_nil_of_allWS (fun b hb => hws b (hsub b hb))
    rw [htr] at this
    exact hne this

theorem takeNAux_mem :
    ∀ (segs : List (List Nat)) (n : Nat) (l : List Nat), l ∈ takeNAux segs n →
      ∃ seg ∈ segs, l = trimB seg ∧ trimB seg ≠ [] := by
  intro segs
  induction segs with
  | nil => intro n l h; cases n <;> simp [takeNAux] at h
  | cons seg rest ih =>
    intro n l h
    cases n with
    | zero => simp [takeNAux] at h
    | succ r =>
      unfold takeNAux at h
      split at h
      · rcases ih _ _ h with ⟨seg', hs, he⟩
        exact ⟨seg', List.mem_cons_of_mem _ hs, he⟩
      · rcases List.mem_cons.1 h with rfl | h
        · rename_i hne
          exact ⟨seg, List.mem_cons_self _ _, rfl, hne⟩
        · rcases ih _ _ h with ⟨seg', hs, he⟩
          exact ⟨seg', List.mem_cons_of_mem _ hs, he⟩

theorem takeNAux_allWS :
    ∀ (segs : List (List Nat)) (n : Nat), (∀ seg ∈ segs, trimB seg = []) →
      takeNAux segs n = [] := by
  intro segs
  induction segs with
  | nil => intro n _; cases n <;> rfl
  | cons seg rest ih =>
    intro n hws
    cases n with
    | zero => rfl
    | succ r =>
      unfold takeNAux
      rw [if_pos (hws seg (List.mem_cons_self _ _))]
      exact ih _ (fun s hs => hws s (List.mem_cons_of_mem _ hs))

theorem firstN_mem {src : List Nat} {n : Nat} {l : List Nat}
    (h : l ∈ firstN src n) : l ≠ [] ∧ trimB l = l := by
  rcases takeNAux_mem _ _ _ h with ⟨seg, -, rfl, hne⟩
  exact ⟨hne, trimB_idem seg⟩

theorem firstN_allWS {src : List Nat} (hws : ∀ b ∈ src, isWs b) (n : Nat) :
    firstN src n = [] :=
  takeNAux_allWS _ _ (fun _ hs =>
    trimB_nil_of_allWS (fun b hb => hws b (mem_rustLines_subset hs hb)))

theorem collectRev_cons (n : Nat) (found : List (List Nat)) (seg : List Nat)
    (rest : List (List Nat)) :
    collectRev n found (seg :: rest) =
      if trimB seg = [] then collectRev n found rest
      else if n ≤ (trimB seg :: found).length then trimB seg :: found
      else collectRev n (trimB seg :: found) rest := rfl

theorem takeNRevLoopF_succ (src : List Nat) (n fuel : Nat)
    (found : List (List Nat)) (buffer : List Nat) (cp : Nat) :
    takeNRevLoopF src n (fuel + 1) found buffer cp =
      if cp = 0 ∨ n ≤ found.length then found
      else
        if 0 < cp - min 8192 cp
            ∧ (src.drop (cp - min 8192 cp)).take (min 8192 cp) ++ buffer ≠ []
            ∧ ((src.drop (cp - min 8192 cp)).take (min 8192 cp) ++ buffer).headD 0
              ≠ 10 then
          if (rustLines
              ((src.drop (cp - min 8192 cp)).take (min 8192 cp) ++ buffer)).length
              > 1 then
            takeNRevLoopF src n fuel
              (collectRev n found
                ((rustLines
                  ((src.drop (cp - min 8192 cp)).take (min 8192 cp) ++ buffer)).drop
                    1).reverse)
              ((rustLines
                ((src.drop (cp - min 8192 cp)).take (min 8192 cp) ++ buffer)).headD [])
              (cp - min 8192 cp)
          else
            takeNRevLoopF src n fuel found
              ((src.drop (cp - min 8192 cp)).take (min 8192 cp) ++ buffer)
              (cp - min 8192 cp)
        else
          takeNRevLoopF src n fuel
            (collectRev n found
              (rustLines
                ((src.drop (cp - min 8192 cp)).take (min 8192 cp) ++ buffer)).reverse)
            [] (cp - min 8192 cp) := rfl

theorem collectRev_mem (n : Nat) :
    ∀ (rs : List (List Nat)) (found : List (List Nat)) (x : List Nat),
      x ∈ collectRev n found rs →
      x ∈ found ∨ ∃ seg ∈ rs, x = trimB seg ∧ trimB seg ≠ [] := by
  intro rs
  induction rs with
  | nil => intro found x h; exact Or.inl h
  | cons seg rest ih =>
    intro found x h
    rw [collectRev_cons] at h
    split at h
    · rcases ih _ _ h with h | ⟨seg', hs, he⟩
      · exact Or.inl h
      · exact Or.inr ⟨seg', List.mem_cons_of_mem _ hs, he⟩
    · rename_i hne
      split at h
      · rcases List.mem_cons.1 h with rfl | h
        · exact Or.inr ⟨seg, List.mem_cons_self _ _, rfl, hne⟩
        · exact Or.inl h
      · rcases ih _ _ h with h | ⟨seg', hs, he⟩
        · rcases List.mem_cons.1 h with rfl | h
          · exact Or.inr ⟨seg, List.mem_cons_self _ _, rfl, hne⟩
          · exact Or.inl h
        · exact Or.inr ⟨seg', List.mem_cons_of_mem _ hs, he⟩

theorem collectRev_allWS (n : Nat) :
    ∀ (rs : List (List Nat)) (found : List (List Nat)),
      (∀ seg ∈ rs, trimB seg = []) → collectRev n found rs = found := by
  intro rs
  induction rs with
  | nil => intro found _; rfl
  | cons seg rest ih =>
    intro found hws
    rw [collectRev_cons, if_pos (hws seg (List.mem_cons_self _ _))]
    exact ih _ (fun s hs => hws s (List.mem_cons_of_mem _ hs))

theorem takeNRevLoopF_inv (src : List Nat) (n : Nat) :
    ∀ fuel (found : List (List Nat)) (buffer : List Nat) (cp : Nat),
      (∀ x ∈ found, x ≠ [] ∧ trimB x = x ∧ ∀ b ∈ x, b ∈ src) →
      (∀ b ∈ buffer, b ∈ src) →
      ∀ x ∈ takeNRevLoopF src n fuel found buffer cp,
        x ≠ [] ∧ trimB x = x ∧ ∀ b ∈ x, b ∈ src := by
  intro fuel
  induction fuel with
  | zero => intro found buffer cp hf _ x hx; exact hf x hx
  | succ fuel ih =>
    intro found buffer cp hf hb x hx
    rw [takeNRevLoopF_succ] at hx
    split at hx
    · exact hf x hx
    · set rs0 := min 8192 cp with hrs
      set np := cp - rs0 with hnp
      set chunk := (src.drop np).take rs0 with hchunk
      set buffer' := chunk ++ buffer with hbuf
      set bl := rustLines buffer' with hbl
      have hbuf'sub : ∀ b ∈ buffer', b ∈ src := by
        intro b hmem
        rw [hbuf] at hmem
        rcases List.mem_append.1 hmem with h | h
        · exact (List.drop_sublist np src).mem ((List.take_sublist _ _).mem h)
        · exact hb b h
      have hsegsub : ∀ seg ∈ bl, ∀ b ∈ seg, b ∈ src := by
        intro seg hseg b hmem
        exact hbuf'sub b (mem_rustLines_subset (hbl ▸ hseg) hmem)
      have hcoll : ∀ (rs : List (List Nat)) (fnd : List (List Nat)),
          (∀ seg ∈ rs, seg ∈ bl) →
          (∀ y ∈ fnd, y ≠ [] ∧ trimB y = y ∧ ∀ b ∈ y, b ∈ src) →
          ∀ y ∈ collectRev n fnd rs, y ≠ [] ∧ trimB y = y ∧ ∀ b ∈ y, b ∈ src := by
        intro rs fnd hrs hfnd y hy
        rcases collectRev_mem n rs fnd y hy with h | ⟨seg, hseg, rfl, hne⟩
        · exact hfnd y h
        · exact ⟨hne, trimB_idem seg,
            fun b hmem => hsegsub seg (hrs seg hseg) b (trimB_subset hmem)⟩
      split at hx
      · split at hx
        · refine ih _ _ _ ?_ ?_ x hx
          · intro y hy
            refine hcoll _ _ ?_ hf y hy
            intro seg hseg
            rw [List.mem_reverse] at hseg
            exact List.mem_of_mem_drop hseg
          · intro b hmem
            rename_i hgt
            have hblne : bl ≠ [] := by
              intro hcon
              rw [hcon] at hgt
              simp at hgt
            exact hsegsub _ (headD_mem [] hblne) b hmem
        · exact ih _ _ _ hf hbuf'sub x hx
      · refine ih _ _ _ ?_ (by intro b hmem; simp at hmem) x hx
        intro y hy
        refine hcoll _ _ ?_ hf y hy
        intro seg hseg
        rw [List.mem_reverse] at hseg
        exact hseg

theorem takeNRevLoopF_allWS {src : List Nat} (hws : ∀ b ∈ src, isWs b) (n : Nat) :
    ∀ fuel (found : List (List Nat)) (buffer : List Nat) (cp : Nat),
      (∀ b ∈ buffer, b ∈ src) →
      takeNRevLoopF src n fuel found buffer cp = found := by
  intro fuel
  induction fuel with
  | zero => intro found buffer cp _; rfl
  | succ fuel ih =>
    intro found buffer cp hb
    rw [takeNRevLoopF_succ]
    split
    · rfl
    · set rs0 := min 8192 cp with hrs
      set np := cp - rs0 with hnp
      set chunk := (src.drop np).take rs0 with hchunk
      set buffer' := chunk ++ buffer with hbuf
      set bl := rustLines buffer' with hbl
      have hbuf'sub : ∀ b ∈ buffer', b ∈ src := by
        intro b hmem
        rw [hbuf] at hmem
        rcases List.mem_append.1 hmem with h | h
        · exact (List.drop_sublist np src).mem ((List.take_sublist _ _).mem h)
        · exact hb b h
      have hsegblank : ∀ seg ∈ bl, trimB seg = [] := by
        intro seg hseg
        exact trimB_nil_of_allWS
          (fun b hmem => hws b (hbuf'sub b (mem_rustLines_subset (hbl ▸ hseg) hmem)))
      split
      · split
        · rw [collectRev_allWS n _ found
            (fun seg hseg => hsegblank seg (List.mem_of_mem_drop (List.mem_reverse.1 hseg)))]
          refine ih _ _ _ ?_
          intro b hmem
          rename_i hgt
          have hblne : bl ≠ [] := by
            intro hcon
            rw [hcon] at hgt
            simp at hgt
          exact hbuf'sub b (mem_rustLines_subset (hbl ▸ headD_mem [] hblne) hmem)
        · exact ih _ _ _ hbuf'sub
      · rw [collectRev_allWS n _ found
          (fun seg hseg => hsegblank seg (List.mem_reverse.1 hseg))]
        exact ih _ _ _ (by intro b hmem; simp at hmem)

theorem lastN_mem {src : List Nat} {n : Nat} {x : List Nat}
    (h : x ∈ lastN src n) : x ≠ [] ∧ trimB x = x ∧ ∀ b ∈ x, b ∈ src := by
  unfold lastN at h
  split at h
  · simp at h
  · rw [List.mem_reverse] at h
    have hx : x ∈ takeNRevLoopF src n (src.length + 1) [] [] src.length := by
      split at h
      · exact List.mem_of_mem_drop h
      · exact h
    exact takeNRevLoopF_inv src n _ [] [] src.length
      (by intro y hy; simp at hy) (by intro b hb; simp at hb) x hx

theorem lastN_allWS {src : List Nat} (hws : ∀ b ∈ src, isWs b) (n : Nat) :
    lastN src n = [] := by
  unfold lastN
  split
  · rfl
  · rw [takeNRevLoopF_allWS hws n _ [] [] src.length (by intro b hb; simp at hb)]
    simp

/-! ### Deserialization layer -/

theorem pollDrain_eq_map (lines : List (List Nat)) :
    pollDrain lines = lines.map Except.ok := by
  induction lines with
  | nil => rfl
  | cons l t ih => rw [pollDrain, ih, List.map_cons]

theorem deserializeStream_map {T : Type} (dec : List Nat → Except (List Nat) T)
    (lines : List (List Nat)) :
    deserializeStream dec (lines.map Except.ok)
      = lines.map (fun l =>
          match dec l with
          | Except.ok v => Except.ok v
          | Except.error e => Except.error (errTag ++ e)) := by
  induction lines with
  | nil => rfl
  | cons l t ih => rw [List.map_cons, deserializeStream, ih, List.map_cons]

theorem deserializeStream_length {T : Type} (dec : List Nat → Except (List Nat) T) :
    ∀ items, (deserializeStream dec items).length = items.length := by
  intro items
  induction items with
  | nil => rfl
  | cons r t ih =>
    cases r with
    | ok l => rw [deserializeStream]; simp [ih]
    | error e => rw [deserializeStream]; simp [ih]

/-! ## Claims -/

/-- Claim C1 (amended): for every ASCII source (all bytes below 128)
containing no carriage-return byte, the reverse reader's line sequence
(general lossy-decoding model, default capacity) equals the reverse of
the forward reader's non-blank trimmed line sequence.  Two independent
accounting slips force the two restrictions (see
`c1_roundtrip_counterexamples`): the reader measures the bytes before the
extracted line as `lines.join("\n") + "\n"` on the lossy-DECODED window,
which undercounts every `\r\n` terminator by one byte (the `\r` is
dropped) and overcounts every malformed UTF-8 sequence (each maximal
ill-formed subsequence decodes to a 3-byte U+FFFD), so `file_pos` drifts
off the true line boundary in either direction. -/
theorem c1_reverse_roundtrip_ascii (src : List Nat)
    (hascii : ∀ b ∈ src, b < 128) (hcr : (13 : Nat) ∉ src) :
    revLinesL src defaultBufSize = (fwdLines src).reverse := by
  rw [revLinesL_agree hascii]
  exact revLines_eq_reverse_fwd hcr (by decide)

/-- Claim C1, counterexamples to the unamended statement: (i) on
`"a\r\nb\r\nc\nd"` the reverse reader yields `["d", "b", "a"]` — the line
`"c"` is lost — while the forward reader's lines reversed are
`["d", "c", "b", "a"]`: after emitting `"d"` the reader sets
`file_pos = 6` (two bytes short of 8, one per dropped `\r`); (ii) on the
CR-free source `"\xFF\na\nb"` the first call counts `before_text =
"\u{FFFD}\na\n"` as 6 decoded bytes and sets `file_pos = 6` — past the
5-byte EOF — after which every call re-reads the same truncated window
and returns `"b"` again: the reverse stream repeats `"b"` forever
(meanwhile the forward reader's `read_line` fails with `InvalidData` on
the malformed first line), so no round-trip law holds there. -/
theorem c1_roundtrip_counterexamples :
    revLinesL [97, 13, 10, 98, 13, 10, 99, 10, 100] defaultBufSize
      ≠ (fwdLines [97, 13, 10, 98, 13, 10, 99, 10, 100]).reverse ∧
    revNextL [255, 10, 97, 10, 98] defaultBufSize 5 = (some [98], 6) ∧
    revNextL [255, 10, 97, 10, 98] defaultBufSize 6 = (some [98], 6) := by decide

/-- Claim C1, witness: the amended round-trip applied to `"a\nb\nc"`. -/
theorem c1_roundtrip_witness :
    ((∀ b ∈ ([97, 10, 98, 10, 99] : List Nat), b < 128)
      ∧ (13 : Nat) ∉ ([97, 10, 98, 10, 99] : List Nat)) ∧
    revLinesL [97, 10, 98, 10, 99] defaultBufSize
      = (fwdLines [97, 10, 98, 10, 99]).reverse :=
  ⟨⟨by decide, by decide⟩,
    c1_reverse_roundtrip_ascii [97, 10, 98, 10, 99] (by decide) (by decide)⟩

/-- Claim C2 (amended): on `"a\nb\r\nc"` the reverse reader yields exactly
`["c", "b", "a"]` — a `\r\n` pair collapses to a single boundary (the
trailing `\r` is stripped from the extracted line) and never produces a
duplicate line.  However a bare `\r` is NOT a terminator candidate: only
`\n` delimits lines (`str::lines` semantics); a bare `\r` inside a line is
preserved (`"a\rb"` is one line), and a trailing bare `\r` disappears only
because trimming treats it as whitespace. -/
theorem c2_mixed_terminators :
    revLines [97, 10, 98, 13, 10, 99] defaultBufSize = [[99], [98], [97]] ∧
    revLines [97, 13, 98] defaultBufSize = [[97, 13, 98]] := by decide

/-- Claim C2, counterexample to the bare-`\r` part: if a bare `\r` were a
terminator candidate, the source `"a\rb"` would split into two lines
(`["b", "a"]` in reverse order); the reader instead yields the single
line `"a\rb"` with the `\r` kept inside it. -/
theorem c2_bare_cr_not_terminator :
    revLines [97, 13, 98] defaultBufSize ≠ [[98], [97]] ∧
    (revLines [97, 13, 98] defaultBufSize).length = 1 := by decide

/-- Claim C3 (amended): for every capacity `c ≥ 1` and every ASCII source
(all bytes below 128) with no carriage-return byte, the reverse reader's
output equals its output at the default 8192-byte capacity.  The
unamended claim fails on CRLF input and on malformed UTF-8, see
`c3_capacity_counterexamples`: the `before_text` drift (dropped `\r`,
3-byte U+FFFD) only occurs when several lines sit in one accumulated
window, so the chunk size changes which lines are emitted. -/
theorem c3_capacity_invariance_ascii (src : List Nat) (c : Nat) (hc : 1 ≤ c)
    (hascii : ∀ b ∈ src, b < 128) (hcr : (13 : Nat) ∉ src) :
    revLinesL src c = revLinesL src defaultBufSize := by
  rw [revLinesL_agree hascii, revLinesL_agree hascii,
    revLines_eq_reverse_fwd hcr hc, revLines_eq_reverse_fwd hcr (by decide)]

/-- Claim C3, counterexamples to the unamended statement: (i) on
`"a\r\nb\r\nc\nd"` capacity 1 yields `["d", "c", "b", "a"]` but the
default capacity yields `["d", "b", "a"]`; (ii) on the CR-free source
`"\xFF\na\nb"` capacity 1 terminates with `["b", "a", "\u{FFFD}"]` while
at the default capacity `file_pos` sticks at 6 and the reader repeats
`"b"` forever (the fueled model returns the first items of that
repetition). -/
theorem c3_capacity_counterexamples :
    revLinesL [97, 13, 10, 98, 13, 10, 99, 10, 100] 1
      ≠ revLinesL [97, 13, 10, 98, 13, 10, 99, 10, 100] defaultBufSize ∧
    revLinesL [255, 10, 97, 10, 98] 1
      ≠ revLinesL [255, 10, 97, 10, 98] defaultBufSize := by decide

/-- Claim C3, witness: capacity 1 agrees with the default capacity on
`"a\nb"`. -/
theorem c3_capacity_witness :
    ((1 : Nat) ≤ 1 ∧ (∀ b ∈ ([97, 10, 98] : List Nat), b < 128)
      ∧ (13 : Nat) ∉ ([97, 10, 98] : List Nat)) ∧
    revLinesL [97, 10, 98] 1 = revLinesL [97, 10, 98] defaultBufSize :=
  ⟨⟨le_rfl, by decide, by decide⟩,
    c3_capacity_invariance_ascii [97, 10, 98] 1 le_rfl (by decide) (by decide)⟩

/-- Claim C4 (amended): for ASCII sources (all bytes below 128) the
stored `file_pos` is monotonically non-increasing across every sequence
of `poll_next_line_reverse` calls: each call's resulting position is at
most the position before it, and the iterated position sequence is
pointwise non-increasing.  The unamended claim is false of the code: the
position after an emission is `chunk_start + before_text.len()` where
`before_text` is measured on the lossy-DECODED window, so each maximal
ill-formed UTF-8 subsequence contributes 3 bytes of U+FFFD while
occupying fewer raw bytes, and `file_pos` can increase — see
`c4_file_pos_can_increase`. -/
theorem c4_file_pos_monotone_ascii (src : List Nat) (c fp : Nat)
    (hascii : ∀ b ∈ src, b < 128) :
    (revNextL src c fp).2 ≤ fp ∧
    ∀ k : Nat, (fun q => (revNextL src c q).2)^[k + 1] fp
      ≤ (fun q => (revNextL src c q).2)^[k] fp := by
  constructor
  · rw [revNextL_agree hascii]
    exact revNext_snd_le src c fp
  · intro k
    rw [Function.iterate_succ_apply']
    show (revNextL src c ((fun q => (revNextL src c q).2)^[k] fp)).2 ≤ _
    rw [revNextL_agree hascii]
    exact revNext_snd_le src c _

/-- Claim C4, counterexample: on `"\xFF\na\nb"` the call at the freshly
initialized `file_pos = file_size = 5` returns `"b"` and sets `file_pos`
to 6 — an increase, past EOF: `before_text = "\u{FFFD}\na\n"` measures 6
bytes in the decoded string (U+FFFD is 3 bytes) although only 4 raw bytes
precede the returned line. -/
theorem c4_file_pos_can_increase :
    (revNextL [255, 10, 97, 10, 98] defaultBufSize 5).2 = 6 ∧
    5 < (revNextL [255, 10, 97, 10, 98] defaultBufSize 5).2 := by decide

/-- Claim C4, witness: the amended monotonicity applied to `"a\nb"` at
its initial position. -/
theorem c4_monotone_witness :
    (∀ b ∈ ([97, 10, 98] : List Nat), b < 128) ∧
    (revNextL [97, 10, 98] defaultBufSize 3).2 ≤ 3 :=
  ⟨by decide,
    (c4_file_pos_monotone_ascii [97, 10, 98] defaultBufSize 3 (by decide)).1⟩

/-- Claim C5 (amended): a zero-byte read on a non-empty request does NOT
produce an `UnexpectedEof` error — the fill loop's `0 => break` simply
truncates the chunk (`buf_reader.rs` lines 137-144) and the truncated
bytes are processed as ordinary data: when the stored position exceeds
the actually available bytes, the call still returns `Ok`, and any line
it yields is a trimmed non-blank line of the bytes actually read. -/
theorem c5_truncated_read_processed :
    ∀ (src : List Nat) (c fp : Nat) (l : List Nat) (p : Nat),
      src.length < fp → revNext src c fp = (some l, p) →
      l ≠ [] ∧ trimB l = l ∧ ∀ b ∈ l, b ∈ src :=
  fun _ _ _ _ _ _ h => revNext_some_line h

/-- Claim C5, counterexample: with stored position 4 over the 3-byte
source `"a\nb"`, the requested 4-byte read returns only 3 bytes and then
0; the code breaks out of the fill loop, truncates the chunk, and returns
`Ok(Some("b"))` with `file_pos = 2` — it does not fail with an
`UnexpectedEof`/`IoError` as the claim states. -/
theorem c5_zero_read_returns_line :
    revNext [97, 10, 98] defaultBufSize 4 = (some [98], 2) := by decide

/-- Claim C5, witness for the amended statement at the same scenario. -/
theorem c5_truncated_witness :
    (([97, 10, 98] : List Nat).length < 4
      ∧ revNext [97, 10, 98] defaultBufSize 4 = (some [98], 2)) ∧
    ([98] ≠ ([] : List Nat) ∧ trimB [98] = [98]
      ∧ ∀ b ∈ ([98] : List Nat), b ∈ ([97, 10, 98] : List Nat)) :=
  ⟨⟨by decide, by decide⟩,
    c5_truncated_read_processed [97, 10, 98] defaultBufSize 4 [98] 2
      (by decide) (by decide)⟩

/-- Claim C6: no reader — forward stream, reverse reader (any capacity),
first-n, last-n — ever emits a line that is empty after trimming, and a
source consisting only of whitespace yields zero lines from every
reader. -/
theorem c6_blank_lines_filtered (src : List Nat) :
    (∀ l ∈ fwdLines src, trimB l ≠ []) ∧
    (∀ c : Nat, ∀ l ∈ revLines src c, trimB l ≠ []) ∧
    (∀ n : Nat, ∀ l ∈ firstN src n, trimB l ≠ []) ∧
    (∀ n : Nat, ∀ l ∈ lastN src n, trimB l ≠ []) ∧
    ((∀ b ∈ src, isWs b) →
      fwdLines src = [] ∧ (∀ c : Nat, revLines src c = []) ∧
      (∀ n : Nat, firstN src n = []) ∧ (∀ n : Nat, lastN src n = [])) := by
  refine ⟨?_, ?_, ?_, ?_, ?_⟩
  · intro l hl
    obtain ⟨hne, htr⟩ := mem_fwdLines hl
    rw [htr]
    exact hne
  · intro c l hl
    obtain ⟨hne, htr, -⟩ := revLines_mem hl
    rw [htr]
    exact hne
  · intro n l hl
    obtain ⟨hne, htr⟩ := firstN_mem hl
    rw [htr]
    exact hne
  · intro n l hl
    obtain ⟨hne, htr, -⟩ := lastN_mem hl
    rw [htr]
    exact hne
  · intro hws
    exact ⟨fwdLines_allWS hws, fun c => revLines_allWS hws c,
      fun n => firstN_allWS hws n, fun n => lastN_allWS hws n⟩

/-- Claim C6, witness: the whitespace-only source `" \n\t"` yields zero
lines from all four readers. -/
theorem c6_blank_witness :
    (∀ b ∈ ([32, 10, 9] : List Nat), isWs b) ∧
    (fwdLines [32, 10, 9] = [] ∧ revLines [32, 10, 9] defaultBufSize = []
      ∧ firstN [32, 10, 9] 3 = [] ∧ lastN [32, 10, 9] 3 = []) := by
  have h := (c6_blank_lines_filtered [32, 10, 9]).2.2.2.2 (by decide)
  exact ⟨by decide, h.1, h.2.1 defaultBufSize, h.2.2.1 3, h.2.2.2 3⟩

/-- Claim C7: over the source `"a\nb\nc\n"`, `last_n(2)` yields exactly
`["c", "b"]` (last line first) and `first_n(2)` yields exactly
`["a", "b"]` (source order). -/
theorem c7_last2_first2 :
    lastN [97, 10, 98, 10, 99, 10] 2 = [[99], [98]] ∧
    firstN [97, 10, 98, 10, 99, 10] 2 = [[97], [98]] := by decide

/-- Claim C8: a structured-decode failure on one line is surfaced as an
`Err` item for that line only and does not abort the stream.  For every
target type and caller-supplied decoder, First-N(3) over the source
`"{}\nno\n[]"` whose middle line fails to decode yields
`[Ok v1, Err(tagged e), Ok v3]`, and the deserialization adapter always
preserves the item count of the underlying stream. -/
theorem c8_decode_error_local (T : Type) (dec : List Nat → Except (List Nat) T)
    (v1 v3 : T) (e2 : List Nat)
    (h1 : dec [123, 125] = Except.ok v1)
    (h2 : dec [110, 111] = Except.error e2)
    (h3 : dec [91, 93] = Except.ok v3) :
    deserializeStream dec (firstNItems [123, 125, 10, 110, 111, 10, 91, 93] 3)
      = [Except.ok v1, Except.error (errTag ++ e2), Except.ok v3] ∧
    ∀ items, (deserializeStream dec items).length = items.length := by
  constructor
  · have hfn : firstN [123, 125, 10, 110, 111, 10, 91, 93] 3
        = [[123, 125], [110, 111], [91, 93]] := by decide
    unfold firstNItems
    rw [hfn, deserializeStream_map]
    simp [h1, h2, h3]
  · exact deserializeStream_length dec

/-- Claim C8, witness: the scenario instantiated with `c8dec`. -/
theorem c8_decode_witness :
    (c8dec [123, 125] = Except.ok 1 ∧ c8dec [110, 111] = Except.error [101, 114, 114]
      ∧ c8dec [91, 93] = Except.ok 2) ∧
    deserializeStream c8dec (firstNItems [123, 125, 10, 110, 111, 10, 91, 93] 3)
      = [Except.ok 1, Except.error (errTag ++ [101, 114, 114]), Except.ok 2] :=
  ⟨⟨rfl, rfl, rfl⟩,
    (c8_decode_error_local Nat c8dec 1 2 [101, 114, 114] rfl rfl rfl).1⟩

/-- Claim C9 (amended): a decode error carries the fixed tag
`"Failed to parse JSON line: "` followed by the decoder's own error
message — and nothing else; in particular the offending raw line text is
not attached by the adapter (it appears only if the decoder's message
happens to mention it). -/
theorem c9_error_carries_decoder_message (T : Type)
    (dec : List Nat → Except (List Nat) T) (src : List Nat) :
    deserializeStream dec (fwdItems src)
      = (fwdLines src).map (fun l =>
          match dec l with
          | Except.ok v => Except.ok v
          | Except.error e => Except.error (errTag ++ e)) :=
  deserializeStream_map dec (fwdLines src)

/-- Claim C9, counterexample: decoding the single-line source `"xyz"`
produces the error `"Failed to parse JSON line: expected value at line 1
column 1"`, which does not contain the offending line `"xyz"`; moreover
the source `"qqq"` produces the identical error value, so the error can
carry no reference to the offending line at all. -/
theorem c9_error_lacks_line_text :
    deserializeStream c9dec (fwdItems [120, 121, 122])
      = [Except.error (errTag ++ c9msg)] ∧
    deserializeStream c9dec (fwdItems [113, 113, 113])
      = deserializeStream c9dec (fwdItems [120, 121, 122]) ∧
    ([120, 121, 122] : List Nat) ≠ [113, 113, 113] ∧
    hasInfix (errTag ++ c9msg) [120, 121, 122] = false := by decide

/-- Claim C10: the stream returned by `last_n` only ever yields `Ok`
items: `TakeNLinesReverse` materializes all its lines during construction,
and polling it merely drains the stored list, wrapping each line in
`Ok`. -/
theorem c10_last_n_stream_all_ok (src : List Nat) (n : Nat) :
    pollDrain (lastN src n) = (lastN src n).map Except.ok ∧
    ∀ r ∈ pollDrain (lastN src n), ∃ l ∈ lastN src n, r = Except.ok l := by
  refine ⟨pollDrain_eq_map _, ?_⟩
  intro r hr
  rw [pollDrain_eq_map] at hr
  rcases List.mem_map.1 hr with ⟨l, hl, rfl⟩
  exact ⟨l, hl, rfl⟩

/-- Claim C10, witness: the single stream item of `last_n(1)` over
`"a\n"` is `Ok("a")`. -/
theorem c10_all_ok_witness :
    (Except.ok [97] ∈ pollDrain (lastN [97, 10] 1)) ∧
    ∃ l ∈ lastN [97, 10] 1,
      (Except.ok [97] : Except (List Nat) (List Nat)) = Except.ok l :=
  ⟨by decide, (c10_last_n_stream_all_ok [97, 10] 1).2 (Except.ok [97]) (by decide)⟩

end AsyncJsonl
